import Mathlib

set_option maxRecDepth 4000
set_option maxHeartbeats 1600000

/-!
Verification of the stabilizer-dataflow analysis core
(src/src/tableau.rs and src/src/stabilizer_dataflow.rs).

The first part embeds the column-major binary symplectic tableau of
src/src/tableau.rs (BitVector-backed `z`, `x`, `signs` fields with the
append conjugation rules).  The second part embeds the row-major
ChoiTableau and the StabilizerDataflow traversal of
src/src/stabilizer_dataflow.rs; the pieces of the row-major tableau that
are only called from stabilizer_dataflow.rs but are not present under
src/ are modelled from the spec and marked as such.
-/

/-! ### List helper lemmas (bit-vector index arithmetic) -/

theorem getD_zip (f : Bool → Bool → Bool) :
    ∀ (a b : List Bool) (r : Nat), r < a.length → r < b.length →
      (List.zipWith f a b).getD r false = f (a.getD r false) (b.getD r false) := by
  intro a
  induction a with
  | nil => intro b r h1 _; simp at h1
  | cons x xs ih =>
    intro b r h1 h2
    cases b with
    | nil => simp at h2
    | cons y ys =>
      cases r with
      | zero => simp
      | succ r =>
        simp only [List.zipWith_cons_cons, List.getD_cons_succ]
        exact ih ys r (by simpa using h1) (by simpa using h2)

theorem getD_map_not :
    ∀ (a : List Bool) (r : Nat), r < a.length →
      (a.map (fun b => !b)).getD r false = !(a.getD r false) := by
  intro a
  induction a with
  | nil => intro r h; simp at h
  | cons x xs ih =>
    intro r h
    cases r with
    | zero => simp
    | succ r => simpa using ih r (by simpa using h)

theorem getD_set_self {α : Type} :
    ∀ (l : List α) (q : Nat) (v d : α), q < l.length → (l.set q v).getD q d = v := by
  intro l
  induction l with
  | nil => intro q v d h; simp at h
  | cons x xs ih =>
    intro q v d h
    cases q with
    | zero => simp
    | succ q => simpa using ih q v d (by simpa using h)

theorem getD_set_ne {α : Type} :
    ∀ (l : List α) (q q' : Nat) (v d : α), q' ≠ q →
      (l.set q v).getD q' d = l.getD q' d := by
  intro l
  induction l with
  | nil => intro q q' v d _; simp
  | cons x xs ih =>
    intro q q' v d hne
    cases q with
    | zero =>
      cases q' with
      | zero => exact absurd rfl hne
      | succ q' => simp
    | succ q =>
      cases q' with
      | zero => simp
      | succ q' => simpa using ih q q' v d (by omega)

theorem set_getD_self {α : Type} :
    ∀ (l : List α) (q : Nat) (d : α), q < l.length → l.set q (l.getD q d) = l := by
  intro l
  induction l with
  | nil => intro q d h; simp at h
  | cons x xs ih =>
    intro q d h
    cases q with
    | zero => simp
    | succ q => simpa using ih q d (by simpa using h)

theorem zip_xor_cancel :
    ∀ (a b : List Bool), a.length = b.length →
      List.zipWith Bool.xor (List.zipWith Bool.xor a b) b = a := by
  intro a
  induction a with
  | nil => intro b h; cases b with
    | nil => rfl
    | cons y ys => simp at h
  | cons x xs ih =>
    intro b h
    cases b with
    | nil => simp at h
    | cons y ys =>
      simp only [List.zipWith_cons_cons]
      refine congrArg₂ List.cons ?_ (ih ys (by simpa using h))
      cases x <;> cases y <;> rfl

theorem sdg_sign_chain :
    ∀ (s z x : List Bool), s.length = z.length → z.length = x.length →
      List.zipWith Bool.xor
        (List.zipWith Bool.xor
          (List.zipWith Bool.xor s (List.zipWith Bool.and z x))
          (List.zipWith Bool.and (List.zipWith Bool.xor z x) x)) x = s := by
  intro s
  induction s with
  | nil =>
    intro z x h1 h2
    cases z with
    | nil => cases x with
      | nil => rfl
      | cons c cs => simp at h2
    | cons b bs => simp at h1
  | cons a as ih =>
    intro z x h1 h2
    cases z with
    | nil => simp at h1
    | cons b bs =>
      cases x with
      | nil => simp at h2
      | cons c cs =>
        simp only [List.zipWith_cons_cons]
        refine congrArg₂ List.cons ?_ (ih bs cs (by simpa using h1) (by simpa using h2))
        cases a <;> cases b <;> cases c <;> rfl

theorem vdg_sign_chain :
    ∀ (s z x : List Bool), s.length = z.length → z.length = x.length →
      List.zipWith Bool.xor
        (List.zipWith Bool.xor
          (List.zipWith Bool.xor s
            (List.zipWith Bool.and (x.map (fun b => !b)) z))
          (List.zipWith Bool.and ((List.zipWith Bool.xor x z).map (fun b => !b)) z)) z = s := by
  intro s
  induction s with
  | nil =>
    intro z x h1 h2
    cases z with
    | nil => rfl
    | cons b bs => simp at h1
  | cons a as ih =>
    intro z x h1 h2
    cases z with
    | nil => simp at h1
    | cons b bs =>
      cases x with
      | nil => simp at h2
      | cons c cs =>
        simp only [List.zipWith_cons_cons, List.map_cons]
        refine congrArg₂ List.cons ?_ (ih bs cs (by simpa using h1) (by simpa using h2))
        cases a <;> cases b <;> cases c <;> rfl

/-! ### BitVector (external packed boolean vector; contract per spec §1/§2) -/

/-- Packed boolean vector of fixed width with XOR, AND, NOT and indexed
get/flip, as consumed by src/src/tableau.rs (the bit_vector module itself is
external to the core). -/
structure BitVector where
  bits : List Bool
deriving DecidableEq, Repr

namespace BitVector

def new (n : Nat) : BitVector := ⟨List.replicate n false⟩

def get (v : BitVector) (i : Nat) : Bool := v.bits.getD i false

/-- Flip bit `i` (XOR with a one-hot vector). -/
def xor_bit (v : BitVector) (i : Nat) : BitVector :=
  ⟨v.bits.set i (!(v.bits.getD i false))⟩

def xor (a b : BitVector) : BitVector := ⟨List.zipWith Bool.xor a.bits b.bits⟩

def and (a b : BitVector) : BitVector := ⟨List.zipWith Bool.and a.bits b.bits⟩

def negate (a : BitVector) : BitVector := ⟨a.bits.map (fun b => !b)⟩

end BitVector

/-! ### The column-major Tableau of src/src/tableau.rs -/

/-- The tableau of src/src/tableau.rs: `z` and `x` hold one BitVector per
qubit (column), each of width `2 * nb_qubits` (one bit per generator row),
and `signs` holds one sign bit per generator row. -/
structure Tableau where
  nb_qubits : Nat
  z : List BitVector
  x : List BitVector
  signs : BitVector
deriving DecidableEq, Repr

namespace Tableau

/-- `init_z`: for each qubit `i`, a one-hot vector with bit `i` set. -/
def init_z (nb_qubits : Nat) : List BitVector :=
  (List.range nb_qubits).map (fun i => (BitVector.new (2 * nb_qubits)).xor_bit i)

/-- `init_x`: for each qubit `i`, a one-hot vector with bit `i + nb_qubits` set. -/
def init_x (nb_qubits : Nat) : List BitVector :=
  (List.range nb_qubits).map (fun i => (BitVector.new (2 * nb_qubits)).xor_bit (i + nb_qubits))

/-- `Tableau::new` (src/src/tableau.rs lines 16-23); `nb_qubits << 1` is
written `2 * nb_qubits`. -/
def new (nb_qubits : Nat) : Tableau :=
  { nb_qubits := nb_qubits
    z := init_z nb_qubits
    x := init_x nb_qubits
    signs := BitVector.new (2 * nb_qubits) }

/-- `append_x` (lines 45-47): `signs ^= z[qubit]`. -/
def append_x (t : Tableau) (qubit : Nat) : Tableau :=
  { t with signs := t.signs.xor (t.z.getD qubit ⟨[]⟩) }

/-- `append_z` (lines 49-51): `signs ^= x[qubit]`. -/
def append_z (t : Tableau) (qubit : Nat) : Tableau :=
  { t with signs := t.signs.xor (t.x.getD qubit ⟨[]⟩) }

/-- `append_v` (lines 53-59): `signs ^= (¬x[qubit]) & z[qubit]; x[qubit] ^= z[qubit]`,
with the sign update computed from the pre-update bits. -/
def append_v (t : Tableau) (qubit : Nat) : Tableau :=
  { t with
    signs := t.signs.xor (((t.x.getD qubit ⟨[]⟩).negate).and (t.z.getD qubit ⟨[]⟩))
    x := t.x.set qubit ((t.x.getD qubit ⟨[]⟩).xor (t.z.getD qubit ⟨[]⟩)) }

/-- `append_s` (lines 61-66): `signs ^= z[qubit] & x[qubit]; z[qubit] ^= x[qubit]`,
with the sign update computed from the pre-update bits. -/
def append_s (t : Tableau) (qubit : Nat) : Tableau :=
  { t with
    signs := t.signs.xor ((t.z.getD qubit ⟨[]⟩).and (t.x.getD qubit ⟨[]⟩))
    z := t.z.set qubit ((t.z.getD qubit ⟨[]⟩).xor (t.x.getD qubit ⟨[]⟩)) }

/-- `append_h` (lines 68-72): `append_s; append_v; append_s`. -/
def append_h (t : Tableau) (qubit : Nat) : Tableau :=
  ((t.append_s qubit).append_v qubit).append_s qubit

/-- Z bit of generator row `r` at column `q`. -/
def zbit (t : Tableau) (q r : Nat) : Bool := (t.z.getD q ⟨[]⟩).get r

/-- X bit of generator row `r` at column `q`. -/
def xbit (t : Tableau) (q r : Nat) : Bool := (t.x.getD q ⟨[]⟩).get r

/-- Sign bit of generator row `r`. -/
def signbit (t : Tableau) (r : Nat) : Bool := t.signs.get r

/-- Width well-formedness: `z` and `x` hold one vector per qubit, all
vectors (and `signs`) have width `2 * nb_qubits`. -/
def wf (t : Tableau) : Prop :=
  t.z.length = t.nb_qubits ∧ t.x.length = t.nb_qubits ∧
  t.signs.bits.length = 2 * t.nb_qubits ∧
  (∀ v ∈ t.z, v.bits.length = 2 * t.nb_qubits) ∧
  (∀ v ∈ t.x, v.bits.length = 2 * t.nb_qubits)

instance (t : Tableau) : Decidable t.wf := by
  unfold wf; infer_instance

theorem wf_z_len (t : Tableau) (h : t.wf) (q : Nat) (hq : q < t.nb_qubits) :
    (t.z.getD q ⟨[]⟩).bits.length = 2 * t.nb_qubits := by
  obtain ⟨h1, _, _, h4, _⟩ := h
  have hq' : q < t.z.length := by omega
  rw [List.getD_eq_getElem?_getD, List.getElem?_eq_getElem hq']
  exact h4 _ (List.getElem_mem hq')

theorem wf_x_len (t : Tableau) (h : t.wf) (q : Nat) (hq : q < t.nb_qubits) :
    (t.x.getD q ⟨[]⟩).bits.length = 2 * t.nb_qubits := by
  obtain ⟨_, h2, _, _, h5⟩ := h
  have hq' : q < t.x.length := by omega
  rw [List.getD_eq_getElem?_getD, List.getElem?_eq_getElem hq']
  exact h5 _ (List.getElem_mem hq')

end Tableau

namespace Tableau

@[simp] theorem nb_append_s (t : Tableau) (q : Nat) : (t.append_s q).nb_qubits = t.nb_qubits := rfl

@[simp] theorem nb_append_v (t : Tableau) (q : Nat) : (t.append_v q).nb_qubits = t.nb_qubits := rfl

@[simp] theorem nb_append_x (t : Tableau) (q : Nat) : (t.append_x q).nb_qubits = t.nb_qubits := rfl

@[simp] theorem nb_append_z (t : Tableau) (q : Nat) : (t.append_z q).nb_qubits = t.nb_qubits := rfl

theorem ext' (a b : Tableau) (h1 : a.nb_qubits = b.nb_qubits) (h2 : a.z = b.z)
    (h3 : a.x = b.x) (h4 : a.signs = b.signs) : a = b := by
  cases a; cases b; simp_all

theorem bv_xor_cancel (a b : BitVector) (h : a.bits.length = b.bits.length) :
    (a.xor b).xor b = a := by
  cases a with | mk abits => cases b with | mk bbits =>
  simp only [BitVector.xor]
  exact congrArg BitVector.mk (zip_xor_cancel abits bbits h)

theorem wf_append_s (t : Tableau) (hw : t.wf) (q : Nat) (hq : q < t.nb_qubits) :
    (t.append_s q).wf := by
  have hzq := wf_z_len t hw q hq
  have hxq := wf_x_len t hw q hq
  obtain ⟨h1, h2, h3, h4, h5⟩ := hw
  refine ⟨by simpa [append_s] using h1, h2, ?_, ?_, h5⟩
  · simp only [append_s, nb_append_s, BitVector.xor, BitVector.and, List.length_zipWith]
    omega
  · intro v hv
    rcases List.mem_or_eq_of_mem_set hv with h | h
    · exact h4 v h
    · subst h
      simp only [BitVector.xor, List.length_zipWith, nb_append_s]
      omega

theorem wf_append_v (t : Tableau) (hw : t.wf) (q : Nat) (hq : q < t.nb_qubits) :
    (t.append_v q).wf := by
  have hzq := wf_z_len t hw q hq
  have hxq := wf_x_len t hw q hq
  obtain ⟨h1, h2, h3, h4, h5⟩ := hw
  refine ⟨h1, by simpa [append_v] using h2, ?_, h4, ?_⟩
  · simp only [append_v, nb_append_v, BitVector.xor, BitVector.and, BitVector.negate,
      List.length_zipWith, List.length_map]
    omega
  · intro v hv
    rcases List.mem_or_eq_of_mem_set hv with h | h
    · exact h5 v h
    · subst h
      simp only [BitVector.xor, List.length_zipWith, nb_append_v]
      omega

theorem zbit_append_s (t : Tableau) (hw : t.wf) (q r : Nat) (hq : q < t.nb_qubits)
    (hr : r < 2 * t.nb_qubits) :
    (t.append_s q).zbit q r = Bool.xor (t.zbit q r) (t.xbit q r) := by
  have hlen : q < t.z.length := by rw [hw.1]; exact hq
  simp only [append_s, zbit, xbit, BitVector.get]
  rw [getD_set_self _ _ _ _ hlen]
  exact getD_zip _ _ _ r (by rw [wf_z_len t hw q hq]; exact hr)
    (by rw [wf_x_len t hw q hq]; exact hr)

theorem zbit_append_s_ne (t : Tableau) (q q' r : Nat) (hne : q' ≠ q) :
    (t.append_s q).zbit q' r = t.zbit q' r := by
  simp only [append_s, zbit, BitVector.get]
  rw [getD_set_ne _ _ _ _ _ hne]

theorem xbit_append_s (t : Tableau) (q q' r : Nat) :
    (t.append_s q).xbit q' r = t.xbit q' r := rfl

theorem signbit_append_s (t : Tableau) (hw : t.wf) (q r : Nat) (hq : q < t.nb_qubits)
    (hr : r < 2 * t.nb_qubits) :
    (t.append_s q).signbit r = Bool.xor (t.signbit r) ((t.zbit q r) && (t.xbit q r)) := by
  have hzq := wf_z_len t hw q hq
  have hxq := wf_x_len t hw q hq
  simp only [append_s, signbit, zbit, xbit, BitVector.get, BitVector.xor, BitVector.and]
  rw [getD_zip _ _ _ r (by rw [hw.2.2.1]; exact hr)
    (by rw [List.length_zipWith]; omega)]
  rw [getD_zip _ _ _ r (by omega) (by omega)]

theorem xbit_append_v (t : Tableau) (hw : t.wf) (q r : Nat) (hq : q < t.nb_qubits)
    (hr : r < 2 * t.nb_qubits) :
    (t.append_v q).xbit q r = Bool.xor (t.xbit q r) (t.zbit q r) := by
  have hlen : q < t.x.length := by rw [hw.2.1]; exact hq
  simp only [append_v, zbit, xbit, BitVector.get]
  rw [getD_set_self _ _ _ _ hlen]
  exact getD_zip _ _ _ r (by rw [wf_x_len t hw q hq]; exact hr)
    (by rw [wf_z_len t hw q hq]; exact hr)

theorem xbit_append_v_ne (t : Tableau) (q q' r : Nat) (hne : q' ≠ q) :
    (t.append_v q).xbit q' r = t.xbit q' r := by
  simp only [append_v, xbit, BitVector.get]
  rw [getD_set_ne _ _ _ _ _ hne]

theorem zbit_append_v (t : Tableau) (q q' r : Nat) :
    (t.append_v q).zbit q' r = t.zbit q' r := rfl

theorem signbit_append_v (t : Tableau) (hw : t.wf) (q r : Nat) (hq : q < t.nb_qubits)
    (hr : r < 2 * t.nb_qubits) :
    (t.append_v q).signbit r = Bool.xor (t.signbit r) ((!(t.xbit q r)) && (t.zbit q r)) := by
  have hzq := wf_z_len t hw q hq
  have hxq := wf_x_len t hw q hq
  simp only [append_v, signbit, zbit, xbit, BitVector.get, BitVector.xor, BitVector.and,
    BitVector.negate]
  rw [getD_zip _ _ _ r (by rw [hw.2.2.1]; exact hr)
    (by rw [List.length_zipWith, List.length_map]; omega)]
  rw [getD_zip _ _ _ r (by rw [List.length_map]; omega) (by omega)]
  rw [getD_map_not _ _ (by omega)]

end Tableau

/-- Claim C6: on the tableau of src/src/tableau.rs, `append_h(q)` (implemented
as `append_s(q); append_v(q); append_s(q)`) swaps the Z and X bits of every
generator row at column `q`, flips a row's sign exactly when that row had both
the Z and the X bit set at `q` before the call, and leaves every other column
untouched. -/
theorem c6_append_h_swaps (t : Tableau) (q r : Nat) (hw : t.wf) (hq : q < t.nb_qubits)
    (hr : r < 2 * t.nb_qubits) :
    (t.append_h q).zbit q r = t.xbit q r ∧
    (t.append_h q).xbit q r = t.zbit q r ∧
    (t.append_h q).signbit r = Bool.xor (t.signbit r) ((t.zbit q r) && (t.xbit q r)) ∧
    (∀ q', q' ≠ q → (t.append_h q).zbit q' r = t.zbit q' r ∧
      (t.append_h q).xbit q' r = t.xbit q' r) := by
  have hw1 : (t.append_s q).wf := Tableau.wf_append_s t hw q hq
  have hw2 : ((t.append_s q).append_v q).wf := Tableau.wf_append_v _ hw1 q hq
  have hq1 : q < (t.append_s q).nb_qubits := hq
  have hq2 : q < ((t.append_s q).append_v q).nb_qubits := hq
  have hr1 : r < 2 * (t.append_s q).nb_qubits := hr
  have hr2 : r < 2 * ((t.append_s q).append_v q).nb_qubits := hr
  refine ⟨?_, ?_, ?_, ?_⟩
  · rw [Tableau.append_h, Tableau.zbit_append_s _ hw2 q r hq2 hr2,
      Tableau.zbit_append_v, Tableau.xbit_append_v _ hw1 q r hq1 hr1,
      Tableau.zbit_append_s _ hw q r hq hr, Tableau.xbit_append_s]
    cases t.zbit q r <;> cases t.xbit q r <;> rfl
  · rw [Tableau.append_h, Tableau.xbit_append_s, Tableau.xbit_append_v _ hw1 q r hq1 hr1,
      Tableau.zbit_append_s _ hw q r hq hr, Tableau.xbit_append_s]
    cases t.zbit q r <;> cases t.xbit q r <;> rfl
  · rw [Tableau.append_h, Tableau.signbit_append_s _ hw2 q r hq2 hr2,
      Tableau.signbit_append_v _ hw1 q r hq1 hr1,
      Tableau.signbit_append_s _ hw q r hq hr,
      Tableau.zbit_append_v, Tableau.xbit_append_v _ hw1 q r hq1 hr1,
      Tableau.zbit_append_s _ hw q r hq hr, Tableau.xbit_append_s]
    cases t.zbit q r <;> cases t.xbit q r <;> cases t.signbit r <;> rfl
  · intro q' hne
    constructor
    · rw [Tableau.append_h, Tableau.zbit_append_s_ne _ _ _ _ hne, Tableau.zbit_append_v,
        Tableau.zbit_append_s_ne _ _ _ _ hne]
    · rw [Tableau.append_h, Tableau.xbit_append_s, Tableau.xbit_append_v_ne _ _ _ _ hne,
        Tableau.xbit_append_s]

/-- Witness for C6 at the one-qubit identity tableau, column 0, row 0. -/
theorem c6_append_h_swaps_witness :
    (Tableau.new 1).wf ∧ 0 < (Tableau.new 1).nb_qubits ∧ 0 < 2 * (Tableau.new 1).nb_qubits ∧
    (((Tableau.new 1).append_h 0).zbit 0 0 = (Tableau.new 1).xbit 0 0 ∧
     ((Tableau.new 1).append_h 0).xbit 0 0 = (Tableau.new 1).zbit 0 0 ∧
     ((Tableau.new 1).append_h 0).signbit 0 =
       Bool.xor ((Tableau.new 1).signbit 0)
         (((Tableau.new 1).zbit 0 0) && ((Tableau.new 1).xbit 0 0)) ∧
     (∀ q', q' ≠ 0 → ((Tableau.new 1).append_h 0).zbit q' 0 = (Tableau.new 1).zbit q' 0 ∧
       ((Tableau.new 1).append_h 0).xbit q' 0 = (Tableau.new 1).xbit q' 0)) :=
  ⟨by decide, by decide, by decide,
   c6_append_h_swaps (Tableau.new 1) 0 0 (by decide) (by decide) (by decide)⟩

theorem bv_sdg_sign (s z x : BitVector) (h1 : s.bits.length = z.bits.length)
    (h2 : z.bits.length = x.bits.length) :
    ((s.xor (z.and x)).xor ((z.xor x).and x)).xor x = s := by
  cases s with | mk sb => cases z with | mk zb => cases x with | mk xb =>
  simp only [BitVector.xor, BitVector.and]
  exact congrArg BitVector.mk (sdg_sign_chain sb zb xb h1 h2)

theorem bv_vdg_sign (s z x : BitVector) (h1 : s.bits.length = z.bits.length)
    (h2 : z.bits.length = x.bits.length) :
    ((s.xor ((x.negate).and z)).xor (((x.xor z).negate).and z)).xor z = s := by
  cases s with | mk sb => cases z with | mk zb => cases x with | mk xb =>
  simp only [BitVector.xor, BitVector.and, BitVector.negate]
  exact congrArg BitVector.mk (vdg_sign_chain sb zb xb h1 h2)

/-- Claim C10: the S-gate handler (`append_s`) followed by the Sdg-gate
handler (`append_s` then `append_z`, as in the Sdg branch of
`apply_quantum_gate`) restores the tableau exactly; likewise the V-gate
handler (`append_v`) followed by the Vdg-gate handler (`append_v` then
`append_x`) is the identity on the tableau. -/
theorem c10_s_sdg_v_vdg_inverse (t : Tableau) (q : Nat) (hw : t.wf) (hq : q < t.nb_qubits) :
    ((t.append_s q).append_s q).append_z q = t ∧
    ((t.append_v q).append_v q).append_x q = t := by
  have hzq := Tableau.wf_z_len t hw q hq
  have hxq := Tableau.wf_x_len t hw q hq
  have hs : t.signs.bits.length = 2 * t.nb_qubits := hw.2.2.1
  have hzlen : q < t.z.length := by rw [hw.1]; exact hq
  have hxlen : q < t.x.length := by rw [hw.2.1]; exact hq
  constructor
  · apply Tableau.ext'
    · rfl
    · simp only [Tableau.append_s, Tableau.append_z]
      rw [getD_set_self _ _ _ _ hzlen, List.set_set,
        Tableau.bv_xor_cancel _ _ (by rw [hzq, hxq]), set_getD_self _ _ _ hzlen]
    · rfl
    · simp only [Tableau.append_s, Tableau.append_z]
      rw [getD_set_self _ _ _ _ hzlen]
      exact bv_sdg_sign _ _ _ (by rw [hs, hzq]) (by rw [hzq, hxq])
  · apply Tableau.ext'
    · rfl
    · rfl
    · simp only [Tableau.append_v, Tableau.append_x]
      rw [getD_set_self _ _ _ _ hxlen, List.set_set,
        Tableau.bv_xor_cancel _ _ (by rw [hxq, hzq]), set_getD_self _ _ _ hxlen]
    · simp only [Tableau.append_v, Tableau.append_x]
      rw [getD_set_self _ _ _ _ hxlen]
      exact bv_vdg_sign _ _ _ (by rw [hs, hzq]) (by rw [hzq, hxq])

/-- Witness for C10 at the one-qubit identity tableau, column 0. -/
theorem c10_s_sdg_v_vdg_inverse_witness :
    (Tableau.new 1).wf ∧ 0 < (Tableau.new 1).nb_qubits ∧
    ((((Tableau.new 1).append_s 0).append_s 0).append_z 0 = Tableau.new 1 ∧
     (((Tableau.new 1).append_v 0).append_v 0).append_x 0 = Tableau.new 1) :=
  ⟨by decide, by decide, c10_s_sdg_v_vdg_inverse (Tableau.new 1) 0 (by decide) (by decide)⟩

/-! ### PauliProduct and the row-major ChoiTableau used by stabilizer_dataflow.rs -/

/-- Modelled from the spec: one stabilizer row (spec §3).  The
pauli_product module is not under src/; stabilizer_dataflow.rs consumes it
through `PauliProduct { z, x, sign }`. -/
structure PauliProduct where
  z : List Bool
  x : List Bool
  sign : Bool
deriving DecidableEq, Repr

/-- Modelled from the spec: the row-major stabilizer tableau (spec §3, §4.1)
whose `stabs` / `nb_stabs` / `add_col` / `add_row` API is called throughout
stabilizer_dataflow.rs but is absent from src/src/tableau.rs (src/ only holds
the column-major variant above). -/
structure ChoiTableau where
  nb_qubits : Nat
  stabs : List PauliProduct
deriving DecidableEq, Repr

namespace ChoiTableau

/-- Modelled from the spec: number of stabilizer rows (`nb_stabs`). -/
def nb_stabs (t : ChoiTableau) : Nat := t.stabs.length

/-- Modelled from the spec: `new(N)` yields `nb_qubits = N` and an empty row
list (spec §4.1). -/
def new (nb_qubits : Nat) : ChoiTableau :=
  { nb_qubits := nb_qubits, stabs := [] }

/-- Modelled from the spec: `add_col()` appends a zero bit to the Z and X
bit-vectors of every existing row, returns the new column index (the old N)
and sets `nb_qubits ← N + 1` (spec §4.1). -/
def add_col (t : ChoiTableau) : Nat × ChoiTableau :=
  (t.nb_qubits,
   { nb_qubits := t.nb_qubits + 1
     stabs := t.stabs.map (fun p => { p with z := p.z ++ [false], x := p.x ++ [false] }) })

/-- Modelled from the spec: `add_row` appends a row (spec §4.1). -/
def add_row (t : ChoiTableau) (p : PauliProduct) : ChoiTableau :=
  { t with stabs := t.stabs ++ [p] }

/-- Clifford append on one row: `X(q)` flips the sign by the row's Z bit at
`q` (spec §4.1 table; same per-row action as src/src/tableau.rs). -/
def rowX (q : Nat) (p : PauliProduct) : PauliProduct :=
  { p with sign := Bool.xor p.sign (p.z.getD q false) }

/-- Clifford append on one row: `Z(q)`. -/
def rowZ (q : Nat) (p : PauliProduct) : PauliProduct :=
  { p with sign := Bool.xor p.sign (p.x.getD q false) }

/-- Clifford append on one row: `S(q)`: `sign ^= z[q] & x[q]; z[q] ^= x[q]`. -/
def rowS (q : Nat) (p : PauliProduct) : PauliProduct :=
  { p with
    sign := Bool.xor p.sign ((p.z.getD q false) && (p.x.getD q false))
    z := p.z.set q (Bool.xor (p.z.getD q false) (p.x.getD q false)) }

/-- Clifford append on one row: `V(q)`: `sign ^= (¬x[q]) & z[q]; x[q] ^= z[q]`. -/
def rowV (q : Nat) (p : PauliProduct) : PauliProduct :=
  { p with
    sign := Bool.xor p.sign ((!(p.x.getD q false)) && (p.z.getD q false))
    x := p.x.set q (Bool.xor (p.x.getD q false) (p.z.getD q false)) }

/-- Clifford append on one row: `CX(a,b)`:
`sign ^= (¬z[a] ^ x[b]) & z[b] & x[a]; z[a] ^= z[b]; x[b] ^= x[a]`. -/
def rowCX (a b : Nat) (p : PauliProduct) : PauliProduct :=
  { p with
    sign := Bool.xor p.sign
      ((Bool.xor (!(p.z.getD a false)) (p.x.getD b false)) &&
        (p.z.getD b false) && (p.x.getD a false))
    z := p.z.set a (Bool.xor (p.z.getD a false) (p.z.getD b false))
    x := p.x.set b (Bool.xor (p.x.getD b false) (p.x.getD a false)) }

def append_x (t : ChoiTableau) (q : Nat) : ChoiTableau := { t with stabs := t.stabs.map (rowX q) }

def append_z (t : ChoiTableau) (q : Nat) : ChoiTableau := { t with stabs := t.stabs.map (rowZ q) }

def append_s (t : ChoiTableau) (q : Nat) : ChoiTableau := { t with stabs := t.stabs.map (rowS q) }

def append_v (t : ChoiTableau) (q : Nat) : ChoiTableau := { t with stabs := t.stabs.map (rowV q) }

/-- `append_h = append_s; append_v; append_s` (src/src/tableau.rs lines 68-72). -/
def append_h (t : ChoiTableau) (q : Nat) : ChoiTableau :=
  ((t.append_s q).append_v q).append_s q

def append_cx (t : ChoiTableau) (a b : Nat) : ChoiTableau :=
  { t with stabs := t.stabs.map (rowCX a b) }

/-- `append_cz = S(a); S(b); CX(a,b); S(b); Z(b); CX(a,b)`
(src/src/tableau.rs lines 87-94). -/
def append_cz (t : ChoiTableau) (a b : Nat) : ChoiTableau :=
  (((((t.append_s a).append_s b).append_cx a b).append_s b).append_z b).append_cx a b

@[simp] theorem nb_stabs_map_eq (t : ChoiTableau) (f : PauliProduct → PauliProduct) :
    (ChoiTableau.mk t.nb_qubits (t.stabs.map f)).nb_stabs = t.nb_stabs := by
  simp [nb_stabs]

@[simp] theorem ct_nb_append_x (t : ChoiTableau) (q : Nat) : (t.append_x q).nb_qubits = t.nb_qubits := rfl
@[simp] theorem ct_nb_append_z (t : ChoiTableau) (q : Nat) : (t.append_z q).nb_qubits = t.nb_qubits := rfl
@[simp] theorem ct_nb_append_s (t : ChoiTableau) (q : Nat) : (t.append_s q).nb_qubits = t.nb_qubits := rfl
@[simp] theorem ct_nb_append_v (t : ChoiTableau) (q : Nat) : (t.append_v q).nb_qubits = t.nb_qubits := rfl
@[simp] theorem nb_append_h (t : ChoiTableau) (q : Nat) : (t.append_h q).nb_qubits = t.nb_qubits := rfl
@[simp] theorem nb_append_cx (t : ChoiTableau) (a b : Nat) : (t.append_cx a b).nb_qubits = t.nb_qubits := rfl
@[simp] theorem nb_append_cz (t : ChoiTableau) (a b : Nat) : (t.append_cz a b).nb_qubits = t.nb_qubits := rfl

@[simp] theorem nb_qubits_add_col (t : ChoiTableau) :
    (t.add_col).2.nb_qubits = t.nb_qubits + 1 := rfl

@[simp] theorem nb_stabs_add_col (t : ChoiTableau) :
    (t.add_col).2.nb_stabs = t.nb_stabs := by
  simp [add_col, nb_stabs]

end ChoiTableau

/-- Claim C3: constructing a tableau with `new(N)` yields `nb_qubits = N`, a
row count of zero, and an empty row list. -/
theorem c3_new_empty (N : Nat) :
    (ChoiTableau.new N).nb_qubits = N ∧ (ChoiTableau.new N).nb_stabs = 0 ∧
    (ChoiTableau.new N).stabs = [] :=
  ⟨rfl, rfl, rfl⟩

/-! ### Association-list maps (HashMap model for the port/column maps) -/

def alookup {α β : Type} [DecidableEq α] (k : α) : List (α × β) → Option β
  | [] => none
  | (k', v) :: t => if k' = k then some v else alookup k t

def aerase {α β : Type} [DecidableEq α] (k : α) : List (α × β) → List (α × β)
  | [] => []
  | (k', v) :: t => if k' = k then aerase k t else (k', v) :: aerase k t

/-- HashMap `insert` model: the new binding shadows and removes any previous
binding of the key. -/
def ainsert {α β : Type} [DecidableEq α] (k : α) (v : β) (l : List (α × β)) : List (α × β) :=
  (k, v) :: aerase k l

/-- HashMap `remove` model: returns the removed value and the remaining map. -/
def aremove {α β : Type} [DecidableEq α] (k : α) (l : List (α × β)) :
    Option (β × List (α × β)) :=
  match alookup k l with
  | none => none
  | some v => some (v, aerase k l)

def akeys {α β : Type} (l : List (α × β)) : List α := l.map Prod.fst

def acontains {α β : Type} [DecidableEq α] (k : α) (l : List (α × β)) : Prop :=
  (alookup k l).isSome

instance {α β : Type} [DecidableEq α] (k : α) (l : List (α × β)) :
    Decidable (acontains k l) := by
  unfold acontains; infer_instance

theorem alookup_aerase {α β : Type} [DecidableEq α] (k k' : α) :
    ∀ l : List (α × β), alookup k' (aerase k l) = if k' = k then none else alookup k' l := by
  intro l
  induction l with
  | nil => simp [aerase, alookup]
  | cons e t ih =>
    obtain ⟨ek, ev⟩ := e
    by_cases h1 : ek = k
    · simp only [aerase, if_pos h1, ih, alookup]
      by_cases h2 : k' = k
      · simp [h2]
      · have : ek ≠ k' := by intro h; exact h2 (by rw [← h, h1])
        simp [h2, alookup, this]
    · simp only [aerase, if_neg h1, alookup]
      by_cases h3 : ek = k'
      · have : ¬ (k' = k) := by intro h; exact h1 (by rw [h3, h])
        simp [h3, this]
      · simp [h3, ih]

theorem alookup_ainsert {α β : Type} [DecidableEq α] (k k' : α) (v : β) (l : List (α × β)) :
    alookup k' (ainsert k v l) = if k' = k then some v else alookup k' l := by
  by_cases h : k' = k
  · simp [ainsert, alookup, h]
  · have hne : k ≠ k' := fun he => h he.symm
    simp [ainsert, alookup, hne, alookup_aerase, h]

theorem acontains_ainsert {α β : Type} [DecidableEq α] (k k' : α) (v : β) (l : List (α × β)) :
    acontains k' (ainsert k v l) ↔ (k' = k ∨ acontains k' l) := by
  unfold acontains
  rw [alookup_ainsert]
  by_cases h : k' = k <;> simp [h]

theorem acontains_aerase {α β : Type} [DecidableEq α] (k k' : α) (l : List (α × β)) :
    acontains k' (aerase k l) ↔ (acontains k' l ∧ k' ≠ k) := by
  unfold acontains
  rw [alookup_aerase]
  by_cases h : k' = k <;> simp [h]

theorem aremove_eq_some {α β : Type} [DecidableEq α] {k : α} {l : List (α × β)}
    {v : β} {l' : List (α × β)} (h : aremove k l = some (v, l')) :
    alookup k l = some v ∧ l' = aerase k l := by
  unfold aremove at h
  cases hl : alookup k l with
  | none => rw [hl] at h; exact absurd h (by simp)
  | some w => rw [hl] at h; simp at h; exact ⟨by rw [h.1], h.2.symm⟩

theorem acontains_of_aremove {α β : Type} [DecidableEq α] {k : α} {l : List (α × β)}
    {v : β} {l' : List (α × β)} (h : aremove k l = some (v, l')) (k' : α) :
    acontains k' l' ↔ (acontains k' l ∧ k' ≠ k) := by
  rw [(aremove_eq_some h).2]
  exact acontains_aerase k k' l

theorem alookup_isSome_iff_mem {α β : Type} [DecidableEq α] (k : α) :
    ∀ l : List (α × β), (alookup k l).isSome ↔ ∃ v, (k, v) ∈ l := by
  intro l
  induction l with
  | nil => simp [alookup]
  | cons e t ih =>
    obtain ⟨ek, ev⟩ := e
    by_cases h : ek = k
    · subst h
      simp [alookup]
    · simp only [alookup, if_neg h, ih, List.mem_cons]
      constructor
      · rintro ⟨v, hv⟩; exact ⟨v, Or.inr hv⟩
      · rintro ⟨v, hv | hv⟩
        · exact absurd (congrArg Prod.fst hv).symm h
        · exact ⟨v, hv⟩

theorem aerase_eq_of_lookup_none {α β : Type} [DecidableEq α] (k : α) :
    ∀ l : List (α × β), alookup k l = none → aerase k l = l := by
  intro l
  induction l with
  | nil => intro _; rfl
  | cons e t ih =>
    obtain ⟨ek, ev⟩ := e
    intro h
    by_cases he : ek = k
    · rw [alookup, if_pos he] at h; exact absurd h (by simp)
    · rw [alookup, if_neg he] at h
      simp only [aerase, if_neg he]
      rw [ih h]

@[simp] theorem akeys_nil {α β : Type} : akeys ([] : List (α × β)) = [] := rfl

@[simp] theorem akeys_cons {α β : Type} (e : α × β) (t : List (α × β)) :
    akeys (e :: t) = e.1 :: akeys t := rfl

theorem not_mem_akeys_lookup_none {α β : Type} [DecidableEq α] (k : α) :
    ∀ l : List (α × β), k ∉ akeys l → alookup k l = none := by
  intro l
  induction l with
  | nil => intro _; rfl
  | cons e t ih =>
    obtain ⟨ek, ev⟩ := e
    intro h
    rw [akeys_cons, List.mem_cons] at h
    push_neg at h
    rw [alookup, if_neg (fun he => h.1 he.symm)]
    exact ih h.2

theorem aerase_sublist {α β : Type} [DecidableEq α] (k : α) :
    ∀ l : List (α × β), (aerase k l).Sublist l := by
  intro l
  induction l with
  | nil => simp [aerase]
  | cons e t ih =>
    obtain ⟨ek, ev⟩ := e
    by_cases he : ek = k
    · rw [aerase, if_pos he]; exact ih.cons _
    · rw [aerase, if_neg he]; exact ih.cons₂ _

def avals {α β : Type} (l : List (α × β)) : Multiset β := (l.map Prod.snd : List β)

theorem avals_aerase {α β : Type} [DecidableEq α] (k : α) {v : β} :
    ∀ l : List (α × β), (akeys l).Nodup → alookup k l = some v →
      avals l = v ::ₘ avals (aerase k l) := by
  intro l
  induction l with
  | nil => intro _ h; exact absurd h (by simp [alookup])
  | cons e t ih =>
    obtain ⟨ek, ev⟩ := e
    intro hnd hl
    rw [akeys_cons] at hnd
    obtain ⟨h1, h2⟩ := List.nodup_cons.mp hnd
    by_cases he : ek = k
    · rw [alookup, if_pos he] at hl
      have hev : ev = v := by simpa using hl
      subst hev
      have hk : k ∉ akeys t := by rw [← he]; exact h1
      rw [aerase, if_pos he, aerase_eq_of_lookup_none k t (not_mem_akeys_lookup_none k t hk)]
      simp [avals]
    · rw [alookup, if_neg he] at hl
      have := ih h2 hl
      simp only [aerase, if_neg he]
      calc avals ((ek, ev) :: t) = ev ::ₘ avals t := by simp [avals]
        _ = ev ::ₘ (v ::ₘ avals (aerase k t)) := by rw [this]
        _ = v ::ₘ (ev ::ₘ avals (aerase k t)) := Multiset.cons_swap _ _ _
        _ = v ::ₘ avals ((ek, ev) :: aerase k t) := by simp [avals]

theorem avals_ainsert_fresh {α β : Type} [DecidableEq α] (k : α) (v : β)
    (l : List (α × β)) (h : ¬ acontains k l) :
    avals (ainsert k v l) = v ::ₘ avals l := by
  have hnone : alookup k l = none := by
    unfold acontains at h
    cases hx : alookup k l with
    | none => rfl
    | some w => rw [hx] at h; exact absurd (by simp) h
  rw [ainsert, aerase_eq_of_lookup_none k l hnone]
  simp [avals]

theorem akeys_nodup_aerase {α β : Type} [DecidableEq α] (k : α)
    (l : List (α × β)) (h : (akeys l).Nodup) : (akeys (aerase k l)).Nodup :=
  ((aerase_sublist k l).map Prod.fst).nodup h

theorem not_mem_akeys_aerase_self {α β : Type} [DecidableEq α] (k : α) :
    ∀ l : List (α × β), k ∉ akeys (aerase k l) := by
  intro l
  induction l with
  | nil => simp [aerase]
  | cons e t ih =>
    obtain ⟨ek, ev⟩ := e
    by_cases he : ek = k
    · rw [aerase, if_pos he]; exact ih
    · rw [aerase, if_neg he, akeys_cons, List.mem_cons]
      rintro (h | h)
      · exact he h.symm
      · exact ih h

theorem akeys_nodup_ainsert {α β : Type} [DecidableEq α] (k : α) (v : β)
    (l : List (α × β)) (h : (akeys l).Nodup) : (akeys (ainsert k v l)).Nodup := by
  rw [ainsert]
  exact List.nodup_cons.mpr ⟨not_mem_akeys_aerase_self k l, akeys_nodup_aerase k l h⟩

/-! ### The dataflow graph model

The host hierarchical graph is an external collaborator (spec §1, §6): the
core consumes only node enumeration in topological order, per-node operation
classification, port-to-port connectivity (`single_linked_input`), and
qubit-type queries.  A region is modelled as its topologically ordered child
list; each node carries its operation and, for each outgoing port index, the
`single_linked_input` successor `(node id, incoming port)`.  Non-qubit ports
are modelled through the boolean type lists of the Input and opaque
operations (`true` = qubit). -/

inductive TkOp where
  | H | CX | CY | CZ | CRz | T | Tdg | Rz | Measure | S | Sdg | X | Y | Z
  | Rx | Ry | Toffoli | MeasureFree | QAlloc | QFree | Reset | V | Vdg
deriving DecidableEq, Repr

inductive GOp where
  /-- The region's Input sentinel; one type flag per outgoing port (`true` = qubit). -/
  | input (outTypes : List Bool)
  /-- The region's Output sentinel. -/
  | output
  /-- A recognized TketOp extension op. -/
  | tket (op : TkOp)
  /-- An unrecognized extension op (handled by `apply_opaque`); type flags per
  incoming and outgoing value port. -/
  | unknownOp (inTypes outTypes : List Bool)
deriving DecidableEq, Repr

structure GNode where
  id : Nat
  op : GOp
  /-- `single_linked_input` data: for outgoing port `p`, `succs.get? p` is the
  unique `(successor node id, successor incoming port)`. -/
  succs : List (Nat × Nat)
deriving DecidableEq, Repr

structure Region where
  nodes : List GNode
deriving DecidableEq, Repr

def GOp.isInput : GOp → Bool
  | .input _ => true
  | _ => false

def GOp.isOutput : GOp → Bool
  | .output => true
  | _ => false

/-- The per-region analysis state of `StabilizerDataflow` (nested analyses are
stored by the source only for inspection and are not part of the state model;
the nested column maps are likewise only written by the hierarchical-node
compositions, which stay outside this flat-region model). -/
structure SDState where
  tab : ChoiTableau
  in_cols : List (Nat × Nat)
  out_cols : List (Nat × Nat)
  frontier_cols : List ((Nat × Nat) × Nat)
  internal_in_cols : List ((Nat × Nat) × Nat)
  internal_out_cols : List ((Nat × Nat) × Nat)
deriving DecidableEq, Repr

/-- `apply_quantum_gate` (src/src/stabilizer_dataflow.rs lines 229-392),
branch for branch; `unwrap` panics are modelled as `none`.  The non-Clifford
branches allocate their columns but add no rows and perform no projection:
those steps are `//TODO::` comments in the source (lines 267-268, 280-281,
317-318, 327-328, 343-344, 361, 366, 370, 372). -/
def applyQuantumGate (st : SDState) (node : GNode) (op : TkOp) : Option SDState :=
  match op with
  | .H =>
    match aremove (node.id, 0) st.frontier_cols with
    | none => none
    | some (col, f) =>
      match node.succs[0]? with
      | none => none
      | some succ =>
        some { st with tab := st.tab.append_h col, frontier_cols := ainsert succ col f }
  | .CX =>
    match aremove (node.id, 0) st.frontier_cols with
    | none => none
    | some (col0, f0) =>
      match aremove (node.id, 1) f0 with
      | none => none
      | some (col1, f1) =>
        match node.succs[0]?, node.succs[1]? with
        | some succ0, some succ1 =>
          some { st with tab := st.tab.append_cx col0 col1,
                         frontier_cols := ainsert succ1 col1 (ainsert succ0 col0 f1) }
        | _, _ => none
  | .CY =>
    match aremove (node.id, 0) st.frontier_cols with
    | none => none
    | some (col0, f0) =>
      match aremove (node.id, 1) f0 with
      | none => none
      | some (col1, f1) =>
        match node.succs[0]?, node.succs[1]? with
        | some succ0, some succ1 =>
          some { st with
            tab := (((st.tab.append_s col1).append_z col1).append_cx col0 col1).append_s col1
            frontier_cols := ainsert succ1 col1 (ainsert succ0 col0 f1) }
        | _, _ => none
  | .CZ =>
    match aremove (node.id, 0) st.frontier_cols with
    | none => none
    | some (col0, f0) =>
      match aremove (node.id, 1) f0 with
      | none => none
      | some (col1, f1) =>
        match node.succs[0]?, node.succs[1]? with
        | some succ0, some succ1 =>
          some { st with tab := st.tab.append_cz col0 col1,
                         frontier_cols := ainsert succ1 col1 (ainsert succ0 col0 f1) }
        | _, _ => none
  | .CRz =>
    match aremove (node.id, 0) st.frontier_cols with
    | none => none
    | some (col_in0, f0) =>
      match aremove (node.id, 1) f0 with
      | none => none
      | some (col_in1, f1) =>
        let (col_out0, tab1) := st.tab.add_col
        let (col_out1, tab2) := tab1.add_col
        let (col_front0, tab3) := tab2.add_col
        let (col_front1, tab4) := tab3.add_col
        match node.succs[0]?, node.succs[1]? with
        | some succ0, some succ1 =>
          some { st with
            tab := tab4
            internal_in_cols := ainsert (node.id, 1) col_in1
              (ainsert (node.id, 0) col_in0 st.internal_in_cols)
            internal_out_cols := ainsert (node.id, 1) col_out1
              (ainsert (node.id, 0) col_out0 st.internal_out_cols)
            frontier_cols := ainsert succ1 col_front1 (ainsert succ0 col_front0 f1) }
        | _, _ => none
  | .T | .Tdg | .Rz | .Measure =>
    match aremove (node.id, 0) st.frontier_cols with
    | none => none
    | some (col_in, f) =>
      let (col_out, tab1) := st.tab.add_col
      let (col_front, tab2) := tab1.add_col
      match node.succs[0]? with
      | none => none
      | some succ =>
        some { st with
          tab := tab2
          internal_in_cols := ainsert (node.id, 0) col_in st.internal_in_cols
          internal_out_cols := ainsert (node.id, 0) col_out st.internal_out_cols
          frontier_cols := ainsert succ col_front f }
  | .S =>
    match aremove (node.id, 0) st.frontier_cols with
    | none => none
    | some (col, f) =>
      match node.succs[0]? with
      | none => none
      | some succ =>
        some { st with tab := st.tab.append_s col, frontier_cols := ainsert succ col f }
  | .Sdg =>
    match aremove (node.id, 0) st.frontier_cols with
    | none => none
    | some (col, f) =>
      match node.succs[0]? with
      | none => none
      | some succ =>
        some { st with tab := (st.tab.append_s col).append_z col,
                       frontier_cols := ainsert succ col f }
  | .X =>
    match aremove (node.id, 0) st.frontier_cols with
    | none => none
    | some (col, f) =>
      match node.succs[0]? with
      | none => none
      | some succ =>
        some { st with tab := st.tab.append_x col, frontier_cols := ainsert succ col f }
  | .Y =>
    match aremove (node.id, 0) st.frontier_cols with
    | none => none
    | some (col, f) =>
      match node.succs[0]? with
      | none => none
      | some succ =>
        some { st with tab := (st.tab.append_x col).append_z col,
                       frontier_cols := ainsert succ col f }
  | .Z =>
    match aremove (node.id, 0) st.frontier_cols with
    | none => none
    | some (col, f) =>
      match node.succs[0]? with
      | none => none
      | some succ =>
        some { st with tab := st.tab.append_z col, frontier_cols := ainsert succ col f }
  | .Rx =>
    match aremove (node.id, 0) st.frontier_cols with
    | none => none
    | some (col_in, f) =>
      let (col_out, tab1) := st.tab.add_col
      let (col_front, tab2) := tab1.add_col
      match node.succs[0]? with
      | none => none
      | some succ =>
        some { st with
          tab := tab2
          internal_in_cols := ainsert (node.id, 0) col_in st.internal_in_cols
          internal_out_cols := ainsert (node.id, 0) col_out st.internal_out_cols
          frontier_cols := ainsert succ col_front f }
  | .Ry =>
    match aremove (node.id, 0) st.frontier_cols with
    | none => none
    | some (col_in, f) =>
      let (col_out, tab1) := st.tab.add_col
      let (col_front, tab2) := tab1.add_col
      match node.succs[0]? with
      | none => none
      | some succ =>
        some { st with
          tab := tab2
          internal_in_cols := ainsert (node.id, 0) col_in st.internal_in_cols
          internal_out_cols := ainsert (node.id, 0) col_out st.internal_out_cols
          frontier_cols := ainsert succ col_front f }
  | .Toffoli =>
    match aremove (node.id, 0) st.frontier_cols with
    | none => none
    | some (col_in0, f0) =>
      match aremove (node.id, 1) f0 with
      | none => none
      | some (col_in1, f1) =>
        match aremove (node.id, 2) f1 with
        | none => none
        | some (col_in2, f2) =>
          let (col_out0, tab1) := st.tab.add_col
          let (col_out1, tab2) := tab1.add_col
          let (col_out2, tab3) := tab2.add_col
          let (col_front0, tab4) := tab3.add_col
          let (col_front1, tab5) := tab4.add_col
          let (col_front2, tab6) := tab5.add_col
          match node.succs[0]?, node.succs[1]?, node.succs[2]? with
          | some succ0, some succ1, some succ2 =>
            some { st with
              tab := tab6
              internal_in_cols := ainsert (node.id, 2) col_in2 (ainsert (node.id, 1) col_in1
                (ainsert (node.id, 0) col_in0 st.internal_in_cols))
              internal_out_cols := ainsert (node.id, 2) col_out2 (ainsert (node.id, 1) col_out1
                (ainsert (node.id, 0) col_out0 st.internal_out_cols))
              frontier_cols := ainsert succ2 col_front2 (ainsert succ1 col_front1
                (ainsert succ0 col_front0 f2)) }
          | _, _, _ => none
  | .MeasureFree =>
    match aremove (node.id, 0) st.frontier_cols with
    | none => none
    | some (col_in, f) =>
      some { st with frontier_cols := f
                     internal_in_cols := ainsert (node.id, 0) col_in st.internal_in_cols }
  | .QAlloc =>
    let (col_front, tab1) := st.tab.add_col
    match node.succs[0]? with
    | none => none
    | some succ =>
      some { st with tab := tab1, frontier_cols := ainsert succ col_front st.frontier_cols }
  | .QFree =>
    match aremove (node.id, 0) st.frontier_cols with
    | none => none
    | some (_, f) =>
      some { st with frontier_cols := f }
  | .Reset =>
    match aremove (node.id, 0) st.frontier_cols with
    | none => none
    | some (col_in, f) =>
      match node.succs[0]? with
      | none => none
      | some succ =>
        some { st with frontier_cols := ainsert succ col_in f }
  | .V =>
    match aremove (node.id, 0) st.frontier_cols with
    | none => none
    | some (col, f) =>
      match node.succs[0]? with
      | none => none
      | some succ =>
        some { st with tab := st.tab.append_v col, frontier_cols := ainsert succ col f }
  | .Vdg =>
    match aremove (node.id, 0) st.frontier_cols with
    | none => none
    | some (col, f) =>
      match node.succs[0]? with
      | none => none
      | some succ =>
        some { st with tab := (st.tab.append_v col).append_x col,
                       frontier_cols := ainsert succ col f }

/-- First loop of `apply_opaque` (lines 396-401): move each qubit input's
frontier column into `internal_in_cols`; `p` is the current port index. -/
def consumeQubitInputs (nid : Nat) : SDState → List Bool → Nat → Option SDState
  | st, [], _ => some st
  | st, ty :: rest, p =>
    if ty then
      match aremove (nid, p) st.frontier_cols with
      | none => none
      | some (col, f) =>
        consumeQubitInputs nid
          { st with frontier_cols := f
                    internal_in_cols := ainsert (nid, p) col st.internal_in_cols }
          rest (p + 1)
    else consumeQubitInputs nid st rest (p + 1)

/-- Second loop of `apply_opaque` (lines 403-411): for each qubit output,
allocate a column pair, record `internal_out_cols` and publish the frontier
entry (the identity rows are a `//TODO::` at line 407). -/
def produceQubitOutputs (node : GNode) : SDState → List Bool → Nat → Option SDState
  | st, [], _ => some st
  | st, ty :: rest, p =>
    if ty then
      let (col_out, tab1) := st.tab.add_col
      let (col_front, tab2) := tab1.add_col
      match node.succs[p]? with
      | none => none
      | some succ =>
        produceQubitOutputs node
          { st with tab := tab2
                    internal_out_cols := ainsert (node.id, p) col_out st.internal_out_cols
                    frontier_cols := ainsert succ col_front st.frontier_cols }
          rest (p + 1)
    else produceQubitOutputs node st rest (p + 1)

/-- `apply_opaque` (lines 394-412). -/
def applyUnknownOp (st : SDState) (node : GNode) (inTypes outTypes : List Bool) :
    Option SDState :=
  match consumeQubitInputs node.id st inTypes 0 with
  | none => none
  | some st1 => produceQubitOutputs node st1 outTypes 0

/-- One iteration of the topological traversal loop of `run_dfg`
(lines 83-136).  An Input node has no explicit match arm in the source and
falls through to the `apply_opaque` default; an Input node has no incoming
value ports. -/
def stepNode (st : SDState) (node : GNode) : Option SDState :=
  match node.op with
  | .input outTypes => applyUnknownOp st node [] outTypes
  | .output =>
    some { st with
      out_cols := st.frontier_cols.foldl (fun oc e => ainsert e.1.2 e.2 oc) st.out_cols
      frontier_cols := [] }
  | .tket t => applyQuantumGate st node t
  | .unknownOp inTypes outTypes => applyUnknownOp st node inTypes outTypes

/-- Port loop of `StabilizerDataflow::new` (lines 56-63): for the `k`-th qubit
outgoing port `p` of the Input node, `in_cols[p] = 2k` and
`frontier_cols[single_linked_input(inp, p)] = 2k + 1`. -/
def sdNewLoop (node : GNode) :
    List (Nat × Nat) → List ((Nat × Nat) × Nat) → Nat → Nat → List Bool →
    Option (List (Nat × Nat) × List ((Nat × Nat) × Nat) × Nat)
  | inCols, frontier, k, _, [] => some (inCols, frontier, k)
  | inCols, frontier, k, p, ty :: rest =>
    if ty then
      match node.succs[p]? with
      | none => none
      | some succ =>
        sdNewLoop node (ainsert p (2 * k) inCols) (ainsert succ (2 * k + 1) frontier)
          (k + 1) (p + 1) rest
    else sdNewLoop node inCols frontier k (p + 1) rest

/-- `StabilizerDataflow::new` (lines 51-77): requires the unique Input child,
seeds `in_cols` and `frontier_cols`, and builds `Tableau::new(2 * K)`.  The
identity rows are left as `//TODO:: Add rows to tableau` (line 65), so the
tableau starts with an empty row list. -/
def sdNew (r : Region) : Option SDState :=
  match r.nodes.filter (fun n => n.op.isInput) with
  | [inp] =>
    match inp.op with
    | .input outTypes =>
      match sdNewLoop inp [] [] 0 0 outTypes with
      | none => none
      | some (inCols, frontier, k) =>
        some { tab := ChoiTableau.new (2 * k), in_cols := inCols, out_cols := [],
               frontier_cols := frontier, internal_in_cols := [],
               internal_out_cols := [] }
    | _ => none
  | _ => none

def runNodes : SDState → List GNode → Option SDState
  | st, [] => some st
  | st, n :: rest =>
    match stepNode st n with
    | none => none
    | some st' => runNodes st' rest

/-- `run_dfg` (lines 79-138) over a flat region: initialization followed by
the traversal in topological order (the node list of the region model). -/
def runDfg (r : Region) : Option SDState :=
  match sdNew r with
  | none => none
  | some st0 => runNodes st0 r.nodes

/-- Unified column layout loop of `run_conditional` (lines 145-159): assigns
consecutive indices starting at `k` to the qubit-typed ports. -/
def unifiedColsLoop : List Bool → Nat → Nat → (List (Nat × Nat) × Nat)
  | [], _, k => ([], k)
  | ty :: rest, p, k =>
    if ty then
      let (m, k') := unifiedColsLoop rest (p + 1) (k + 1)
      ((p, k) :: m, k')
    else unifiedColsLoop rest (p + 1) k

/-- Case loop of `run_conditional` (lines 160-188): each case region is
analysed with `run_dfg` and its tableau cloned; the first case becomes the
summary verbatim, and for every later case the analysis is only stored in
`nested_analysis` — the IO projection, the column reorder and the join are
`//TODO::` comments (lines 166-170), so later case tableaux never reach the
summary. -/
def runCondCases (uin uout : List (Nat × Nat)) : Option SDState → List Region → Option SDState
  | summ, [] => summ
  | summ, c :: rest =>
    match runDfg c with
    | none => none
    | some analysis =>
      match summ with
      | some s => runCondCases uin uout (some s) rest
      | none =>
        runCondCases uin uout
          (some { tab := analysis.tab, in_cols := uin, out_cols := uout,
                  frontier_cols := [], internal_in_cols := [],
                  internal_out_cols := [] })
          rest

/-- `run_conditional` (lines 140-190): derive the unified input/output column
maps from the signature type rows, then fold over the case regions; the final
`summary.unwrap()` is the `none` case. -/
def runConditional (inTypes outTypes : List Bool) (cases : List Region) : Option SDState :=
  let (uin, k1) := unifiedColsLoop inTypes 0 0
  let (uout, _) := unifiedColsLoop outTypes 0 k1
  runCondCases uin uout none cases

/-! ### C1, C2, C4, C8: divergence of the implementation from the documented
behaviour (the corresponding steps are `//TODO::` comments in the source). -/

theorem sdNewLoop_count (node : GNode) :
    ∀ (tys : List Bool) (ic : List (Nat × Nat)) (fr : List ((Nat × Nat) × Nat)) (k p : Nat)
      (ic' : List (Nat × Nat)) (fr' : List ((Nat × Nat) × Nat)) (k' : Nat),
      sdNewLoop node ic fr k p tys = some (ic', fr', k') → k' = k + tys.count true := by
  intro tys
  induction tys with
  | nil =>
    intro ic fr k p ic' fr' k' h
    simp only [sdNewLoop, Option.some.injEq, Prod.mk.injEq] at h
    simp [← h.2.2]
  | cons ty rest ih =>
    intro ic fr k p ic' fr' k' h
    cases ty with
    | false =>
      rw [sdNewLoop, if_neg (by decide)] at h
      have := ih _ _ _ _ _ _ _ h
      simpa [List.count_cons] using this
    | true =>
      rw [sdNewLoop, if_pos rfl] at h
      cases hsucc : node.succs[p]? with
      | none => rw [hsucc] at h; exact absurd h (by simp)
      | some succ =>
        rw [hsucc] at h
        have := ih _ _ _ _ _ _ _ h
        have hc : (true :: rest).count true = rest.count true + 1 := by simp
        rw [hc]
        omega

/-- Claim C1 (divergence evidence): after `StabilizerDataflow::new` the
tableau has `2K` columns for `K` qubit input ports but an empty row list —
the two identity stabilizers per input pair are left as
`//TODO:: Add rows to tableau` (line 65), while `test_identity_analysis`
asserts `nb_stabs = 4` for `K = 2`. -/
theorem c1_init_has_no_rows (r : Region) (inp : GNode) (outTypes : List Bool)
    (hfil : r.nodes.filter (fun n => n.op.isInput) = [inp])
    (hop : inp.op = GOp.input outTypes) :
    ∀ st0, sdNew r = some st0 →
      st0.tab.nb_qubits = 2 * outTypes.count true ∧ st0.tab.nb_stabs = 0 ∧
      st0.tab.stabs = [] := by
  intro st0 h
  unfold sdNew at h
  rw [hfil] at h
  dsimp only at h
  rw [hop] at h
  dsimp only at h
  cases hloop : sdNewLoop inp [] [] 0 0 outTypes with
  | none => rw [hloop] at h; exact absurd h (by simp)
  | some res =>
    obtain ⟨ic, fr, k⟩ := res
    rw [hloop] at h
    have hk := sdNewLoop_count inp outTypes [] [] 0 0 ic fr k hloop
    have := Option.some.inj h
    subst this
    refine ⟨?_, rfl, rfl⟩
    simp [ChoiTableau.new, hk]

def sdDefault : SDState :=
  { tab := ChoiTableau.new 0, in_cols := [], out_cols := [], frontier_cols := [],
    internal_in_cols := [], internal_out_cols := [] }

/-- Input node of the `test_identity_analysis` region: a non-qubit port 0 and
qubit ports 1 and 2. -/
def c1Inp : GNode :=
  { id := 0, op := GOp.input [false, true, true], succs := [(9, 9), (1, 0), (1, 1)] }

/-- The region of `test_identity_analysis`: a non-qubit input port followed by
two qubit input ports wired straight to the Output sentinel. -/
def c1Region : Region :=
  { nodes := [c1Inp, { id := 1, op := GOp.output, succs := [] }] }

def c1State : SDState := (sdNew c1Region).getD sdDefault

/-- Witness for C1 at the `test_identity_analysis` region (`K = 2`): the code
yields 4 columns and 0 rows where the test asserts 4 identity rows. -/
theorem c1_init_has_no_rows_witness :
    c1Region.nodes.filter (fun n => n.op.isInput) = [c1Inp] ∧
    c1Inp.op = GOp.input [false, true, true] ∧
    sdNew c1Region = some c1State ∧
    (c1State.tab.nb_qubits = 2 * [false, true, true].count true ∧
     c1State.tab.nb_stabs = 0 ∧ c1State.tab.stabs = []) :=
  ⟨by decide, by decide, by decide,
   c1_init_has_no_rows c1Region c1Inp [false, true, true] (by decide) (by decide) c1State
     (by decide)⟩

/-- Claim C4 (divergence evidence): the handler of a non-Clifford single-qubit
boundary node (T, Tdg, Rz, Measure, Rx, Ry) allocates `c_out` and `c_front`
and records the column maps, but adds no identity rows, no commuting-Pauli
row, and performs no projection: the stabilizer count is unchanged.  Those
steps are `//TODO::` comments (lines 280-281, 317-318, 327-328). -/
theorem c4_nonclifford_adds_no_rows (st : SDState) (node : GNode) (op : TkOp)
    (hop : op = TkOp.T ∨ op = TkOp.Tdg ∨ op = TkOp.Rz ∨ op = TkOp.Measure ∨
      op = TkOp.Rx ∨ op = TkOp.Ry)
    (st' : SDState) (h : applyQuantumGate st node op = some st') :
    st'.tab.nb_stabs = st.tab.nb_stabs ∧ st'.tab.nb_qubits = st.tab.nb_qubits + 2 ∧
    st'.tab.stabs.map PauliProduct.sign = st.tab.stabs.map PauliProduct.sign := by
  rcases hop with rfl | rfl | rfl | rfl | rfl | rfl <;>
  · unfold applyQuantumGate at h
    cases hrem : aremove (node.id, 0) st.frontier_cols with
    | none => rw [hrem] at h; exact absurd h (by simp)
    | some cf =>
      obtain ⟨col, f⟩ := cf
      rw [hrem] at h
      cases hsucc : node.succs[0]? with
      | none =>
        rw [hsucc] at h
        exact absurd h (by simp [ChoiTableau.add_col])
      | some succ =>
        rw [hsucc] at h
        simp only [ChoiTableau.add_col, Option.some.injEq] at h
        subst h
        refine ⟨?_, rfl, ?_⟩
        · simp [ChoiTableau.nb_stabs]
        · simp

def c4St : SDState :=
  { sdDefault with tab := ChoiTableau.new 3, frontier_cols := [((5, 0), 2)] }

def c4Node : GNode := { id := 5, op := GOp.tket TkOp.T, succs := [(6, 0)] }

def c4W : SDState := (applyQuantumGate c4St c4Node TkOp.T).getD sdDefault

/-- Witness for C4: a T gate consuming frontier column 2. -/
theorem c4_nonclifford_adds_no_rows_witness :
    (TkOp.T = TkOp.T ∨ TkOp.T = TkOp.Tdg ∨ TkOp.T = TkOp.Rz ∨ TkOp.T = TkOp.Measure ∨
      TkOp.T = TkOp.Rx ∨ TkOp.T = TkOp.Ry) ∧
    applyQuantumGate c4St c4Node TkOp.T = some c4W ∧
    (c4W.tab.nb_stabs = c4St.tab.nb_stabs ∧ c4W.tab.nb_qubits = c4St.tab.nb_qubits + 2 ∧
     c4W.tab.stabs.map PauliProduct.sign = c4St.tab.stabs.map PauliProduct.sign) :=
  ⟨Or.inl rfl, by decide,
   c4_nonclifford_adds_no_rows c4St c4Node TkOp.T (Or.inl rfl) c4W (by decide)⟩

/-- Claim C8 (divergence evidence): the QFree handler only removes the
frontier entry; the projection on Z and the column removal are left as a
`//TODO::` (line 366), so the tableau — including `nb_qubits` — is returned
unchanged, where `test_mixed_clifford` asserts the shrunken width. -/
theorem c8_qfree_leaves_tableau (st : SDState) (node : GNode) (st' : SDState)
    (h : applyQuantumGate st node TkOp.QFree = some st') :
    st'.tab = st.tab ∧ st'.tab.nb_qubits = st.tab.nb_qubits ∧
    st'.in_cols = st.in_cols ∧ st'.out_cols = st.out_cols ∧
    st'.internal_in_cols = st.internal_in_cols := by
  unfold applyQuantumGate at h
  cases hrem : aremove (node.id, 0) st.frontier_cols with
  | none => rw [hrem] at h; exact absurd h (by simp)
  | some cf =>
    obtain ⟨col, f⟩ := cf
    rw [hrem] at h
    have := Option.some.inj h
    subst this
    exact ⟨rfl, rfl, rfl, rfl, rfl⟩

def c8St : SDState :=
  { sdDefault with tab := ChoiTableau.new 5, frontier_cols := [((7, 0), 4)] }

def c8Node : GNode := { id := 7, op := GOp.tket TkOp.QFree, succs := [] }

def c8W : SDState := (applyQuantumGate c8St c8Node TkOp.QFree).getD sdDefault

/-- Witness for C8: QFree on frontier column 4 of a 5-column tableau. -/
theorem c8_qfree_leaves_tableau_witness :
    applyQuantumGate c8St c8Node TkOp.QFree = some c8W ∧
    (c8W.tab = c8St.tab ∧ c8W.tab.nb_qubits = c8St.tab.nb_qubits ∧
     c8W.in_cols = c8St.in_cols ∧ c8W.out_cols = c8St.out_cols ∧
     c8W.internal_in_cols = c8St.internal_in_cols) :=
  ⟨by decide, c8_qfree_leaves_tableau c8St c8Node c8W (by decide)⟩

/-- Case 0 of a two-case conditional: the identity region on one qubit. -/
def condCase0 : Region :=
  { nodes := [ { id := 0, op := GOp.input [true], succs := [(1, 0)] },
               { id := 1, op := GOp.output, succs := [] } ] }

/-- Case 1 of the conditional: a single T gate on the qubit. -/
def condCase1 : Region :=
  { nodes := [ { id := 0, op := GOp.input [true], succs := [(1, 0)] },
               { id := 1, op := GOp.tket TkOp.T, succs := [(2, 0)] },
               { id := 2, op := GOp.output, succs := [] } ] }

def c2Summary : SDState := (runConditional [true] [true] [condCase0, condCase1]).getD sdDefault

def c2A0 : SDState := (runDfg condCase0).getD sdDefault

def c2A1 : SDState := (runDfg condCase1).getD sdDefault

/-- Claim C2 (divergence evidence, closed): for a two-case conditional whose
cases are the identity and a T gate, the summary tableau is exactly case 0's
raw tableau: case 1's tableau (of different width) is never joined in, no IO
projection happens (the summary keeps all 4 columns of case 0 although the
unified layout has columns 0 and 1 only), and no row-echelon reduction is
performed — the join, projection and reorder are `//TODO::` comments
(lines 166-170). -/
theorem c2_conditional_join_missing :
    runConditional [true] [true] [condCase0, condCase1] = some c2Summary ∧
    runDfg condCase0 = some c2A0 ∧ runDfg condCase1 = some c2A1 ∧
    c2Summary.tab = c2A0.tab ∧
    c2A0.tab.nb_qubits = 4 ∧ c2A1.tab.nb_qubits = 6 ∧
    c2Summary.tab.nb_qubits = 4 ∧
    c2Summary.in_cols = [(0, 0)] ∧ c2Summary.out_cols = [(0, 1)] := by
  refine ⟨by decide, by decide, by decide, by decide, by decide, by decide, by decide,
    by decide, by decide⟩

/-! ### Frontier discipline of the traversal (towards C5 and C7) -/

/-- Number of qubit input ports the handler of each TketOp consumes
(`frontier_cols.remove` calls per branch of `apply_quantum_gate`). -/
def TkOp.nQIn : TkOp → Nat
  | .CX | .CY | .CZ | .CRz => 2
  | .Toffoli => 3
  | .QAlloc => 0
  | _ => 1

/-- Number of qubit output ports the handler publishes
(`frontier_cols.insert` calls per branch of `apply_quantum_gate`). -/
def TkOp.nQOut : TkOp → Nat
  | .CX | .CY | .CZ | .CRz => 2
  | .Toffoli => 3
  | .MeasureFree | .QFree => 0
  | _ => 1

def trueIndicesFrom : List Bool → Nat → List Nat
  | [], _ => []
  | true :: rest, p => p :: trueIndicesFrom rest (p + 1)
  | false :: rest, p => trueIndicesFrom rest (p + 1)

def trueIndices (tys : List Bool) : List Nat := trueIndicesFrom tys 0

/-- Qubit input ports whose frontier entries a node's handler consumes. -/
def qInPortsOf : GOp → List Nat
  | .input _ => []
  | .output => []
  | .tket t => List.range t.nQIn
  | .unknownOp inTs _ => trueIndices inTs

/-- Qubit output ports for which a node's handler publishes frontier entries. -/
def qOutPortsOf : GOp → List Nat
  | .input outTs => trueIndices outTs
  | .output => []
  | .tket t => List.range t.nQOut
  | .unknownOp _ outTs => trueIndices outTs

/-- Frontier keys a node's handler removes. -/
def removedKeys (n : GNode) : List (Nat × Nat) :=
  (qInPortsOf n.op).map (fun p => (n.id, p))

/-- A node's handler publishes frontier key `k` (for some qubit output port). -/
def producesKey (n : GNode) (k : Nat × Nat) : Prop :=
  ∃ p ∈ qOutPortsOf n.op, n.succs[p]? = some k

theorem frontier_shape1 {frontier f : List ((Nat × Nat) × Nat)} {a succ : Nat × Nat}
    {col : Nat} (v : Nat) (hrem : aremove a frontier = some (col, f)) (k : Nat × Nat) :
    acontains k (ainsert succ v f) ↔ (k = succ ∨ (acontains k frontier ∧ k ≠ a)) := by
  rw [acontains_ainsert, acontains_of_aremove hrem]

theorem frontier_shape2 {frontier f0 f1 : List ((Nat × Nat) × Nat)} {a0 a1 s0 s1 : Nat × Nat}
    {col0 col1 : Nat} (v0 v1 : Nat) (h0 : aremove a0 frontier = some (col0, f0))
    (h1 : aremove a1 f0 = some (col1, f1)) (k : Nat × Nat) :
    acontains k (ainsert s1 v1 (ainsert s0 v0 f1)) ↔
      (k = s1 ∨ k = s0 ∨ (acontains k frontier ∧ k ≠ a0 ∧ k ≠ a1)) := by
  rw [acontains_ainsert, acontains_ainsert, acontains_of_aremove h1, acontains_of_aremove h0]
  tauto

theorem frontier_shape3 {frontier f0 f1 f2 : List ((Nat × Nat) × Nat)}
    {a0 a1 a2 s0 s1 s2 : Nat × Nat} {col0 col1 col2 : Nat} (v0 v1 v2 : Nat)
    (h0 : aremove a0 frontier = some (col0, f0)) (h1 : aremove a1 f0 = some (col1, f1))
    (h2 : aremove a2 f1 = some (col2, f2)) (k : Nat × Nat) :
    acontains k (ainsert s2 v2 (ainsert s1 v1 (ainsert s0 v0 f2))) ↔
      (k = s2 ∨ k = s1 ∨ k = s0 ∨ (acontains k frontier ∧ k ≠ a0 ∧ k ≠ a1 ∧ k ≠ a2)) := by
  rw [acontains_ainsert, acontains_ainsert, acontains_ainsert, acontains_of_aremove h2,
    acontains_of_aremove h1, acontains_of_aremove h0]
  tauto

theorem consumeQubitInputs_spec (nid : Nat) :
    ∀ (tys : List Bool) (st : SDState) (p : Nat) (st' : SDState),
      consumeQubitInputs nid st tys p = some st' →
      (∀ k, acontains k st'.frontier_cols ↔
        (acontains k st.frontier_cols ∧ ∀ j ∈ trueIndicesFrom tys p, k ≠ (nid, j))) ∧
      st'.out_cols = st.out_cols ∧ st'.tab = st.tab := by
  intro tys
  induction tys with
  | nil =>
    intro st p st' h
    simp only [consumeQubitInputs, Option.some.injEq] at h
    subst h
    simp [trueIndicesFrom]
  | cons ty rest ih =>
    intro st p st' h
    cases ty with
    | false =>
      rw [consumeQubitInputs, if_neg (by decide)] at h
      have := ih st (p + 1) st' h
      simpa [trueIndicesFrom] using this
    | true =>
      rw [consumeQubitInputs, if_pos rfl] at h
      cases hrem : aremove (nid, p) st.frontier_cols with
      | none => rw [hrem] at h; exact absurd h (by simp)
      | some cf =>
        obtain ⟨col, f⟩ := cf
        rw [hrem] at h
        obtain ⟨hiff, hoc, htab⟩ := ih _ (p + 1) st' h
        refine ⟨?_, hoc, htab⟩
        intro k
        rw [hiff k]
        dsimp only
        rw [acontains_of_aremove hrem]
        simp only [trueIndicesFrom]
        constructor
        · rintro ⟨⟨hc, hne⟩, hall⟩
          refine ⟨hc, ?_⟩
          intro j hj
          rcases List.mem_cons.mp hj with rfl | hj'
          · exact hne
          · exact hall j hj'
        · rintro ⟨hc, hall⟩
          exact ⟨⟨hc, hall p (List.mem_cons_self _ _)⟩,
            fun j hj => hall j (List.mem_cons_of_mem _ hj)⟩

theorem produceQubitOutputs_spec (node : GNode) :
    ∀ (tys : List Bool) (st : SDState) (p : Nat) (st' : SDState),
      produceQubitOutputs node st tys p = some st' →
      (∀ k, acontains k st'.frontier_cols ↔
        (acontains k st.frontier_cols ∨
          ∃ j ∈ trueIndicesFrom tys p, node.succs[j]? = some k)) ∧
      st'.out_cols = st.out_cols := by
  intro tys
  induction tys with
  | nil =>
    intro st p st' h
    simp only [produceQubitOutputs, Option.some.injEq] at h
    subst h
    simp [trueIndicesFrom]
  | cons ty rest ih =>
    intro st p st' h
    cases ty with
    | false =>
      rw [produceQubitOutputs, if_neg (by decide)] at h
      have := ih st (p + 1) st' h
      simpa [trueIndicesFrom] using this
    | true =>
      rw [produceQubitOutputs, if_pos rfl] at h
      cases hsucc : node.succs[p]? with
      | none =>
        rw [hsucc] at h
        exact absurd h (by simp [ChoiTableau.add_col])
      | some succ =>
        rw [hsucc] at h
        simp only [ChoiTableau.add_col] at h
        obtain ⟨hiff, hoc⟩ := ih _ (p + 1) st' h
        refine ⟨?_, hoc⟩
        intro k
        rw [hiff k]
        dsimp only
        rw [acontains_ainsert]
        simp only [trueIndicesFrom]
        constructor
        · rintro ((rfl | hc) | ⟨j, hj, hk⟩)
          · exact Or.inr ⟨p, List.mem_cons_self _ _, hsucc⟩
          · exact Or.inl hc
          · exact Or.inr ⟨j, List.mem_cons_of_mem _ hj, hk⟩
        · rintro (hc | ⟨j, hj, hk⟩)
          · exact Or.inl (Or.inr hc)
          · rcases List.mem_cons.mp hj with rfl | hj'
            · rw [hsucc] at hk
              exact Or.inl (Or.inl (Option.some.inj hk).symm)
            · exact Or.inr ⟨j, hj', hk⟩

theorem applyUnknownOp_spec (st : SDState) (node : GNode) (inTs outTs : List Bool)
    (st' : SDState) (h : applyUnknownOp st node inTs outTs = some st') :
    (∀ k, acontains k st'.frontier_cols ↔
      ((acontains k st.frontier_cols ∧ ∀ j ∈ trueIndices inTs, k ≠ (node.id, j)) ∨
        ∃ j ∈ trueIndices outTs, node.succs[j]? = some k)) ∧
    st'.out_cols = st.out_cols := by
  unfold applyUnknownOp at h
  cases hcons : consumeQubitInputs node.id st inTs 0 with
  | none => rw [hcons] at h; exact absurd h (by simp)
  | some st1 =>
    rw [hcons] at h
    obtain ⟨hiff1, hoc1, _⟩ := consumeQubitInputs_spec node.id inTs st 0 st1 hcons
    obtain ⟨hiff2, hoc2⟩ := produceQubitOutputs_spec node outTs st1 0 st' h
    refine ⟨?_, by rw [hoc2, hoc1]⟩
    intro k
    rw [hiff2 k, hiff1 k]
    rfl

theorem range1 : List.range 1 = [0] := rfl

theorem range2 : List.range 2 = [0, 1] := rfl

theorem range3 : List.range 3 = [0, 1, 2] := rfl

theorem range0 : List.range 0 = [] := rfl

/-- Frontier footprint of one traversal step: on success, a non-Output node's
handler removes exactly the frontier keys of its qubit input ports and
publishes exactly the successor keys of its qubit output ports, and does not
touch `out_cols`. -/
theorem stepNode_frontier_spec (st st' : SDState) (n : GNode)
    (hout : n.op.isOutput = false)
    (h : stepNode st n = some st') :
    (∀ k, acontains k st'.frontier_cols ↔
      ((acontains k st.frontier_cols ∧ k ∉ removedKeys n) ∨ producesKey n k)) ∧
    st'.out_cols = st.out_cols := by
  cases hop : n.op with
  | input outTs =>
    unfold stepNode at h
    rw [hop] at h
    dsimp only at h
    obtain ⟨hiff, hoc⟩ := applyUnknownOp_spec st n [] outTs st' h
    refine ⟨?_, hoc⟩
    intro k
    rw [hiff k]
    simp only [removedKeys, producesKey, qInPortsOf, qOutPortsOf, hop, trueIndices,
      trueIndicesFrom]
    simp [List.mem_map] <;> tauto
  | output =>
    rw [hop] at hout
    simp [GOp.isOutput] at hout
  | unknownOp inTs outTs =>
    unfold stepNode at h
    rw [hop] at h
    dsimp only at h
    obtain ⟨hiff, hoc⟩ := applyUnknownOp_spec st n inTs outTs st' h
    refine ⟨?_, hoc⟩
    intro k
    rw [hiff k]
    simp only [removedKeys, producesKey, qInPortsOf, qOutPortsOf, hop]
    constructor
    · rintro (⟨hc, hall⟩ | hex)
      · refine Or.inl ⟨hc, ?_⟩
        intro hmem
        obtain ⟨j, hj, hje⟩ := List.mem_map.mp hmem
        exact hall j hj hje.symm
      · exact Or.inr hex
    · rintro (⟨hc, hnm⟩ | hex)
      · refine Or.inl ⟨hc, ?_⟩
        intro j hj hke
        exact hnm (List.mem_map.mpr ⟨j, hj, hke.symm⟩)
      · exact Or.inr hex
  | tket t =>
    unfold stepNode at h
    rw [hop] at h
    dsimp only at h
    cases t with
    | H =>
      unfold applyQuantumGate at h
      dsimp only at h
      cases hrem : aremove (n.id, 0) st.frontier_cols with
      | none => rw [hrem] at h; exact absurd h (by simp [ChoiTableau.add_col])
      | some cf =>
        obtain ⟨col, f⟩ := cf
        rw [hrem] at h
        cases hsucc : n.succs[0]? with
        | none => rw [hsucc] at h; exact absurd h (by simp [ChoiTableau.add_col])
        | some succ =>
          rw [hsucc] at h
          simp only [ChoiTableau.add_col, Option.some.injEq] at h
          subst h
          refine ⟨?_, rfl⟩
          intro k
          dsimp only
          rw [frontier_shape1 _ hrem k]
          simp only [removedKeys, producesKey, qInPortsOf, qOutPortsOf, hop, TkOp.nQIn,
            TkOp.nQOut, range1]
          simp [hsucc, List.mem_cons, not_or] <;> tauto
    | CX =>
      unfold applyQuantumGate at h
      dsimp only at h
      cases hrem0 : aremove (n.id, 0) st.frontier_cols with
      | none => rw [hrem0] at h; exact absurd h (by simp [ChoiTableau.add_col])
      | some cf0 =>
        obtain ⟨col0, f0⟩ := cf0
        rw [hrem0] at h
        dsimp only at h
        cases hrem1 : aremove (n.id, 1) f0 with
        | none => rw [hrem1] at h; exact absurd h (by simp [ChoiTableau.add_col])
        | some cf1 =>
          obtain ⟨col1, f1⟩ := cf1
          rw [hrem1] at h
          dsimp only at h
          cases hs0 : n.succs[0]? with
          | none => rw [hs0] at h; exact absurd h (by simp [ChoiTableau.add_col])
          | some succ0 =>
            cases hs1 : n.succs[1]? with
            | none => rw [hs0, hs1] at h; exact absurd h (by simp [ChoiTableau.add_col])
            | some succ1 =>
              rw [hs0, hs1] at h
              simp only [ChoiTableau.add_col, Option.some.injEq] at h
              subst h
              refine ⟨?_, rfl⟩
              intro k
              dsimp only
              rw [frontier_shape2 _ _ hrem0 hrem1 k]
              simp only [removedKeys, producesKey, qInPortsOf, qOutPortsOf, hop, TkOp.nQIn,
                TkOp.nQOut, range2]
              simp [hs0, hs1, List.mem_cons, not_or] <;> tauto
    | CY =>
      unfold applyQuantumGate at h
      dsimp only at h
      cases hrem0 : aremove (n.id, 0) st.frontier_cols with
      | none => rw [hrem0] at h; exact absurd h (by simp [ChoiTableau.add_col])
      | some cf0 =>
        obtain ⟨col0, f0⟩ := cf0
        rw [hrem0] at h
        dsimp only at h
        cases hrem1 : aremove (n.id, 1) f0 with
        | none => rw [hrem1] at h; exact absurd h (by simp [ChoiTableau.add_col])
        | some cf1 =>
          obtain ⟨col1, f1⟩ := cf1
          rw [hrem1] at h
          dsimp only at h
          cases hs0 : n.succs[0]? with
          | none => rw [hs0] at h; exact absurd h (by simp [ChoiTableau.add_col])
          | some succ0 =>
            cases hs1 : n.succs[1]? with
            | none => rw [hs0, hs1] at h; exact absurd h (by simp [ChoiTableau.add_col])
            | some succ1 =>
              rw [hs0, hs1] at h
              simp only [ChoiTableau.add_col, Option.some.injEq] at h
              subst h
              refine ⟨?_, rfl⟩
              intro k
              dsimp only
              rw [frontier_shape2 _ _ hrem0 hrem1 k]
              simp only [removedKeys, producesKey, qInPortsOf, qOutPortsOf, hop, TkOp.nQIn,
                TkOp.nQOut, range2]
              simp [hs0, hs1, List.mem_cons, not_or] <;> tauto
    | CZ =>
      unfold applyQuantumGate at h
      dsimp only at h
      cases hrem0 : aremove (n.id, 0) st.frontier_cols with
      | none => rw [hrem0] at h; exact absurd h (by simp [ChoiTableau.add_col])
      | some cf0 =>
        obtain ⟨col0, f0⟩ := cf0
        rw [hrem0] at h
        dsimp only at h
        cases hrem1 : aremove (n.id, 1) f0 with
        | none => rw [hrem1] at h; exact absurd h (by simp [ChoiTableau.add_col])
        | some cf1 =>
          obtain ⟨col1, f1⟩ := cf1
          rw [hrem1] at h
          dsimp only at h
          cases hs0 : n.succs[0]? with
          | none => rw [hs0] at h; exact absurd h (by simp [ChoiTableau.add_col])
          | some succ0 =>
            cases hs1 : n.succs[1]? with
            | none => rw [hs0, hs1] at h; exact absurd h (by simp [ChoiTableau.add_col])
            | some succ1 =>
              rw [hs0, hs1] at h
              simp only [ChoiTableau.add_col, Option.some.injEq] at h
              subst h
              refine ⟨?_, rfl⟩
              intro k
              dsimp only
              rw [frontier_shape2 _ _ hrem0 hrem1 k]
              simp only [removedKeys, producesKey, qInPortsOf, qOutPortsOf, hop, TkOp.nQIn,
                TkOp.nQOut, range2]
              simp [hs0, hs1, List.mem_cons, not_or] <;> tauto
    | CRz =>
      unfold applyQuantumGate at h
      dsimp only at h
      cases hrem0 : aremove (n.id, 0) st.frontier_cols with
      | none => rw [hrem0] at h; exact absurd h (by simp [ChoiTableau.add_col])
      | some cf0 =>
        obtain ⟨col0, f0⟩ := cf0
        rw [hrem0] at h
        dsimp only at h
        cases hrem1 : aremove (n.id, 1) f0 with
        | none => rw [hrem1] at h; exact absurd h (by simp [ChoiTableau.add_col])
        | some cf1 =>
          obtain ⟨col1, f1⟩ := cf1
          rw [hrem1] at h
          dsimp only at h
          cases hs0 : n.succs[0]? with
          | none => rw [hs0] at h; exact absurd h (by simp [ChoiTableau.add_col])
          | some succ0 =>
            cases hs1 : n.succs[1]? with
            | none => rw [hs0, hs1] at h; exact absurd h (by simp [ChoiTableau.add_col])
            | some succ1 =>
              rw [hs0, hs1] at h
              simp only [ChoiTableau.add_col, Option.some.injEq] at h
              subst h
              refine ⟨?_, rfl⟩
              intro k
              dsimp only
              rw [frontier_shape2 _ _ hrem0 hrem1 k]
              simp only [removedKeys, producesKey, qInPortsOf, qOutPortsOf, hop, TkOp.nQIn,
                TkOp.nQOut, range2]
              simp [hs0, hs1, List.mem_cons, not_or] <;> tauto
    | T =>
      unfold applyQuantumGate at h
      dsimp only at h
      cases hrem : aremove (n.id, 0) st.frontier_cols with
      | none => rw [hrem] at h; exact absurd h (by simp [ChoiTableau.add_col])
      | some cf =>
        obtain ⟨col, f⟩ := cf
        rw [hrem] at h
        cases hsucc : n.succs[0]? with
        | none => rw [hsucc] at h; exact absurd h (by simp [ChoiTableau.add_col])
        | some succ =>
          rw [hsucc] at h
          simp only [ChoiTableau.add_col, Option.some.injEq] at h
          subst h
          refine ⟨?_, rfl⟩
          intro k
          dsimp only
          rw [frontier_shape1 _ hrem k]
          simp only [removedKeys, producesKey, qInPortsOf, qOutPortsOf, hop, TkOp.nQIn,
            TkOp.nQOut, range1]
          simp [hsucc, List.mem_cons, not_or] <;> tauto
    | Tdg =>
      unfold applyQuantumGate at h
      dsimp only at h
      cases hrem : aremove (n.id, 0) st.frontier_cols with
      | none => rw [hrem] at h; exact absurd h (by simp [ChoiTableau.add_col])
      | some cf =>
        obtain ⟨col, f⟩ := cf
        rw [hrem] at h
        cases hsucc : n.succs[0]? with
        | none => rw [hsucc] at h; exact absurd h (by simp [ChoiTableau.add_col])
        | some succ =>
          rw [hsucc] at h
          simp only [ChoiTableau.add_col, Option.some.injEq] at h
          subst h
          refine ⟨?_, rfl⟩
          intro k
          dsimp only
          rw [frontier_shape1 _ hrem k]
          simp only [removedKeys, producesKey, qInPortsOf, qOutPortsOf, hop, TkOp.nQIn,
            TkOp.nQOut, range1]
          simp [hsucc, List.mem_cons, not_or] <;> tauto
    | Rz =>
      unfold applyQuantumGate at h
      dsimp only at h
      cases hrem : aremove (n.id, 0) st.frontier_cols with
      | none => rw [hrem] at h; exact absurd h (by simp [ChoiTableau.add_col])
      | some cf =>
        obtain ⟨col, f⟩ := cf
        rw [hrem] at h
        cases hsucc : n.succs[0]? with
        | none => rw [hsucc] at h; exact absurd h (by simp [ChoiTableau.add_col])
        | some succ =>
          rw [hsucc] at h
          simp only [ChoiTableau.add_col, Option.some.injEq] at h
          subst h
          refine ⟨?_, rfl⟩
          intro k
          dsimp only
          rw [frontier_shape1 _ hrem k]
          simp only [removedKeys, producesKey, qInPortsOf, qOutPortsOf, hop, TkOp.nQIn,
            TkOp.nQOut, range1]
          simp [hsucc, List.mem_cons, not_or] <;> tauto
    | Measure =>
      unfold applyQuantumGate at h
      dsimp only at h
      cases hrem : aremove (n.id, 0) st.frontier_cols with
      | none => rw [hrem] at h; exact absurd h (by simp [ChoiTableau.add_col])
      | some cf =>
        obtain ⟨col, f⟩ := cf
        rw [hrem] at h
        cases hsucc : n.succs[0]? with
        | none => rw [hsucc] at h; exact absurd h (by simp [ChoiTableau.add_col])
        | some succ =>
          rw [hsucc] at h
          simp only [ChoiTableau.add_col, Option.some.injEq] at h
          subst h
          refine ⟨?_, rfl⟩
          intro k
          dsimp only
          rw [frontier_shape1 _ hrem k]
          simp only [removedKeys, producesKey, qInPortsOf, qOutPortsOf, hop, TkOp.nQIn,
            TkOp.nQOut, range1]
          simp [hsucc, List.mem_cons, not_or] <;> tauto
    | S =>
      unfold applyQuantumGate at h
      dsimp only at h
      cases hrem : aremove (n.id, 0) st.frontier_cols with
      | none => rw [hrem] at h; exact absurd h (by simp [ChoiTableau.add_col])
      | some cf =>
        obtain ⟨col, f⟩ := cf
        rw [hrem] at h
        cases hsucc : n.succs[0]? with
        | none => rw [hsucc] at h; exact absurd h (by simp [ChoiTableau.add_col])
        | some succ =>
          rw [hsucc] at h
          simp only [ChoiTableau.add_col, Option.some.injEq] at h
          subst h
          refine ⟨?_, rfl⟩
          intro k
          dsimp only
          rw [frontier_shape1 _ hrem k]
          simp only [removedKeys, producesKey, qInPortsOf, qOutPortsOf, hop, TkOp.nQIn,
            TkOp.nQOut, range1]
          simp [hsucc, List.mem_cons, not_or] <;> tauto
    | Sdg =>
      unfold applyQuantumGate at h
      dsimp only at h
      cases hrem : aremove (n.id, 0) st.frontier_cols with
      | none => rw [hrem] at h; exact absurd h (by simp [ChoiTableau.add_col])
      | some cf =>
        obtain ⟨col, f⟩ := cf
        rw [hrem] at h
        cases hsucc : n.succs[0]? with
        | none => rw [hsucc] at h; exact absurd h (by simp [ChoiTableau.add_col])
        | some succ =>
          rw [hsucc] at h
          simp only [ChoiTableau.add_col, Option.some.injEq] at h
          subst h
          refine ⟨?_, rfl⟩
          intro k
          dsimp only
          rw [frontier_shape1 _ hrem k]
          simp only [removedKeys, producesKey, qInPortsOf, qOutPortsOf, hop, TkOp.nQIn,
            TkOp.nQOut, range1]
          simp [hsucc, List.mem_cons, not_or] <;> tauto
    | X =>
      unfold applyQuantumGate at h
      dsimp only at h
      cases hrem : aremove (n.id, 0) st.frontier_cols with
      | none => rw [hrem] at h; exact absurd h (by simp [ChoiTableau.add_col])
      | some cf =>
        obtain ⟨col, f⟩ := cf
        rw [hrem] at h
        cases hsucc : n.succs[0]? with
        | none => rw [hsucc] at h; exact absurd h (by simp [ChoiTableau.add_col])
        | some succ =>
          rw [hsucc] at h
          simp only [ChoiTableau.add_col, Option.some.injEq] at h
          subst h
          refine ⟨?_, rfl⟩
          intro k
          dsimp only
          rw [frontier_shape1 _ hrem k]
          simp only [removedKeys, producesKey, qInPortsOf, qOutPortsOf, hop, TkOp.nQIn,
            TkOp.nQOut, range1]
          simp [hsucc, List.mem_cons, not_or] <;> tauto
    | Y =>
      unfold applyQuantumGate at h
      dsimp only at h
      cases hrem : aremove (n.id, 0) st.frontier_cols with
      | none => rw [hrem] at h; exact absurd h (by simp [ChoiTableau.add_col])
      | some cf =>
        obtain ⟨col, f⟩ := cf
        rw [hrem] at h
        cases hsucc : n.succs[0]? with
        | none => rw [hsucc] at h; exact absurd h (by simp [ChoiTableau.add_col])
        | some succ =>
          rw [hsucc] at h
          simp only [ChoiTableau.add_col, Option.some.injEq] at h
          subst h
          refine ⟨?_, rfl⟩
          intro k
          dsimp only
          rw [frontier_shape1 _ hrem k]
          simp only [removedKeys, producesKey, qInPortsOf, qOutPortsOf, hop, TkOp.nQIn,
            TkOp.nQOut, range1]
          simp [hsucc, List.mem_cons, not_or] <;> tauto
    | Z =>
      unfold applyQuantumGate at h
      dsimp only at h
      cases hrem : aremove (n.id, 0) st.frontier_cols with
      | none => rw [hrem] at h; exact absurd h (by simp [ChoiTableau.add_col])
      | some cf =>
        obtain ⟨col, f⟩ := cf
        rw [hrem] at h
        cases hsucc : n.succs[0]? with
        | none => rw [hsucc] at h; exact absurd h (by simp [ChoiTableau.add_col])
        | some succ =>
          rw [hsucc] at h
          simp only [ChoiTableau.add_col, Option.some.injEq] at h
          subst h
          refine ⟨?_, rfl⟩
          intro k
          dsimp only
          rw [frontier_shape1 _ hrem k]
          simp only [removedKeys, producesKey, qInPortsOf, qOutPortsOf, hop, TkOp.nQIn,
            TkOp.nQOut, range1]
          simp [hsucc, List.mem_cons, not_or] <;> tauto
    | Rx =>
      unfold applyQuantumGate at h
      dsimp only at h
      cases hrem : aremove (n.id, 0) st.frontier_cols with
      | none => rw [hrem] at h; exact absurd h (by simp [ChoiTableau.add_col])
      | some cf =>
        obtain ⟨col, f⟩ := cf
        rw [hrem] at h
        cases hsucc : n.succs[0]? with
        | none => rw [hsucc] at h; exact absurd h (by simp [ChoiTableau.add_col])
        | some succ =>
          rw [hsucc] at h
          simp only [ChoiTableau.add_col, Option.some.injEq] at h
          subst h
          refine ⟨?_, rfl⟩
          intro k
          dsimp only
          rw [frontier_shape1 _ hrem k]
          simp only [removedKeys, producesKey, qInPortsOf, qOutPortsOf, hop, TkOp.nQIn,
            TkOp.nQOut, range1]
          simp [hsucc, List.mem_cons, not_or] <;> tauto
    | Ry =>
      unfold applyQuantumGate at h
      dsimp only at h
      cases hrem : aremove (n.id, 0) st.frontier_cols with
      | none => rw [hrem] at h; exact absurd h (by simp [ChoiTableau.add_col])
      | some cf =>
        obtain ⟨col, f⟩ := cf
        rw [hrem] at h
        cases hsucc : n.succs[0]? with
        | none => rw [hsucc] at h; exact absurd h (by simp [ChoiTableau.add_col])
        | some succ =>
          rw [hsucc] at h
          simp only [ChoiTableau.add_col, Option.some.injEq] at h
          subst h
          refine ⟨?_, rfl⟩
          intro k
          dsimp only
          rw [frontier_shape1 _ hrem k]
          simp only [removedKeys, producesKey, qInPortsOf, qOutPortsOf, hop, TkOp.nQIn,
            TkOp.nQOut, range1]
          simp [hsucc, List.mem_cons, not_or] <;> tauto
    | Toffoli =>
      unfold applyQuantumGate at h
      dsimp only at h
      cases hrem0 : aremove (n.id, 0) st.frontier_cols with
      | none => rw [hrem0] at h; exact absurd h (by simp [ChoiTableau.add_col])
      | some cf0 =>
        obtain ⟨col0, f0⟩ := cf0
        rw [hrem0] at h
        dsimp only at h
        cases hrem1 : aremove (n.id, 1) f0 with
        | none => rw [hrem1] at h; exact absurd h (by simp [ChoiTableau.add_col])
        | some cf1 =>
          obtain ⟨col1, f1⟩ := cf1
          rw [hrem1] at h
          dsimp only at h
          cases hrem2 : aremove (n.id, 2) f1 with
          | none => rw [hrem2] at h; exact absurd h (by simp [ChoiTableau.add_col])
          | some cf2 =>
            obtain ⟨col2, f2⟩ := cf2
            rw [hrem2] at h
            dsimp only at h
            cases hs0 : n.succs[0]? with
            | none => rw [hs0] at h; exact absurd h (by simp [ChoiTableau.add_col])
            | some succ0 =>
              cases hs1 : n.succs[1]? with
              | none => rw [hs0, hs1] at h; exact absurd h (by simp [ChoiTableau.add_col])
              | some succ1 =>
                cases hs2 : n.succs[2]? with
                | none => rw [hs0, hs1, hs2] at h; exact absurd h (by simp [ChoiTableau.add_col])
                | some succ2 =>
                  rw [hs0, hs1, hs2] at h
                  simp only [ChoiTableau.add_col, Option.some.injEq] at h
                  subst h
                  refine ⟨?_, rfl⟩
                  intro k
                  dsimp only
                  rw [frontier_shape3 _ _ _ hrem0 hrem1 hrem2 k]
                  simp only [removedKeys, producesKey, qInPortsOf, qOutPortsOf, hop, TkOp.nQIn,
                    TkOp.nQOut, range3]
                  simp [hs0, hs1, hs2, List.mem_cons, not_or] <;> tauto
    | MeasureFree =>
      unfold applyQuantumGate at h
      dsimp only at h
      cases hrem : aremove (n.id, 0) st.frontier_cols with
      | none => rw [hrem] at h; exact absurd h (by simp [ChoiTableau.add_col])
      | some cf =>
        obtain ⟨col, f⟩ := cf
        rw [hrem] at h
        simp only [Option.some.injEq] at h
        subst h
        refine ⟨?_, rfl⟩
        intro k
        dsimp only
        rw [acontains_of_aremove hrem]
        simp only [removedKeys, producesKey, qInPortsOf, qOutPortsOf, hop, TkOp.nQIn,
          TkOp.nQOut, range1, range0]
        simp [List.mem_cons, not_or] <;> tauto
    | QAlloc =>
      unfold applyQuantumGate at h
      dsimp only at h
      cases hsucc : n.succs[0]? with
      | none => rw [hsucc] at h; exact absurd h (by simp [ChoiTableau.add_col])
      | some succ =>
        rw [hsucc] at h
        simp only [ChoiTableau.add_col, Option.some.injEq] at h
        subst h
        refine ⟨?_, rfl⟩
        intro k
        dsimp only
        rw [acontains_ainsert]
        simp only [removedKeys, producesKey, qInPortsOf, qOutPortsOf, hop, TkOp.nQIn,
          TkOp.nQOut, range1, range0]
        simp [hsucc, List.mem_cons, not_or] <;> tauto
    | QFree =>
      unfold applyQuantumGate at h
      dsimp only at h
      cases hrem : aremove (n.id, 0) st.frontier_cols with
      | none => rw [hrem] at h; exact absurd h (by simp [ChoiTableau.add_col])
      | some cf =>
        obtain ⟨col, f⟩ := cf
        rw [hrem] at h
        simp only [Option.some.injEq] at h
        subst h
        refine ⟨?_, rfl⟩
        intro k
        dsimp only
        rw [acontains_of_aremove hrem]
        simp only [removedKeys, producesKey, qInPortsOf, qOutPortsOf, hop, TkOp.nQIn,
          TkOp.nQOut, range1, range0]
        simp [List.mem_cons, not_or] <;> tauto
    | Reset =>
      unfold applyQuantumGate at h
      dsimp only at h
      cases hrem : aremove (n.id, 0) st.frontier_cols with
      | none => rw [hrem] at h; exact absurd h (by simp [ChoiTableau.add_col])
      | some cf =>
        obtain ⟨col, f⟩ := cf
        rw [hrem] at h
        cases hsucc : n.succs[0]? with
        | none => rw [hsucc] at h; exact absurd h (by simp [ChoiTableau.add_col])
        | some succ =>
          rw [hsucc] at h
          simp only [ChoiTableau.add_col, Option.some.injEq] at h
          subst h
          refine ⟨?_, rfl⟩
          intro k
          dsimp only
          rw [frontier_shape1 _ hrem k]
          simp only [removedKeys, producesKey, qInPortsOf, qOutPortsOf, hop, TkOp.nQIn,
            TkOp.nQOut, range1]
          simp [hsucc, List.mem_cons, not_or] <;> tauto
    | V =>
      unfold applyQuantumGate at h
      dsimp only at h
      cases hrem : aremove (n.id, 0) st.frontier_cols with
      | none => rw [hrem] at h; exact absurd h (by simp [ChoiTableau.add_col])
      | some cf =>
        obtain ⟨col, f⟩ := cf
        rw [hrem] at h
        cases hsucc : n.succs[0]? with
        | none => rw [hsucc] at h; exact absurd h (by simp [ChoiTableau.add_col])
        | some succ =>
          rw [hsucc] at h
          simp only [ChoiTableau.add_col, Option.some.injEq] at h
          subst h
          refine ⟨?_, rfl⟩
          intro k
          dsimp only
          rw [frontier_shape1 _ hrem k]
          simp only [removedKeys, producesKey, qInPortsOf, qOutPortsOf, hop, TkOp.nQIn,
            TkOp.nQOut, range1]
          simp [hsucc, List.mem_cons, not_or] <;> tauto
    | Vdg =>
      unfold applyQuantumGate at h
      dsimp only at h
      cases hrem : aremove (n.id, 0) st.frontier_cols with
      | none => rw [hrem] at h; exact absurd h (by simp [ChoiTableau.add_col])
      | some cf =>
        obtain ⟨col, f⟩ := cf
        rw [hrem] at h
        cases hsucc : n.succs[0]? with
        | none => rw [hsucc] at h; exact absurd h (by simp [ChoiTableau.add_col])
        | some succ =>
          rw [hsucc] at h
          simp only [ChoiTableau.add_col, Option.some.injEq] at h
          subst h
          refine ⟨?_, rfl⟩
          intro k
          dsimp only
          rw [frontier_shape1 _ hrem k]
          simp only [removedKeys, producesKey, qInPortsOf, qOutPortsOf, hop, TkOp.nQIn,
            TkOp.nQOut, range1]
          simp [hsucc, List.mem_cons, not_or] <;> tauto

/-! ### C5: Clifford gates reuse columns -/

/-- The gates with dedicated Clifford branches in `apply_quantum_gate`
(H, S, Sdg, X, Y, Z, V, Vdg, CX, CY, CZ). -/
def isCliffordTk : TkOp → Bool
  | .H | .S | .Sdg | .X | .Y | .Z | .V | .Vdg | .CX | .CY | .CZ => true
  | _ => false

theorem applyQuantumGate_clifford_nb (st : SDState) (n : GNode) (t : TkOp) (st' : SDState)
    (hcl : isCliffordTk t = true) (h : applyQuantumGate st n t = some st') :
    st'.tab.nb_qubits = st.tab.nb_qubits := by
  cases t <;>
    first
    | exact absurd hcl (by decide)
    | (unfold applyQuantumGate at h
       dsimp only at h
       cases hrem : aremove (n.id, 0) st.frontier_cols with
       | none => rw [hrem] at h; exact absurd h (by simp)
       | some cf =>
         obtain ⟨col, f⟩ := cf
         rw [hrem] at h
         cases hsucc : n.succs[0]? with
         | none => rw [hsucc] at h; exact absurd h (by simp)
         | some succ =>
           rw [hsucc] at h
           simp only [Option.some.injEq] at h
           subst h
           simp)
    | (unfold applyQuantumGate at h
       dsimp only at h
       cases hrem0 : aremove (n.id, 0) st.frontier_cols with
       | none => rw [hrem0] at h; exact absurd h (by simp)
       | some cf0 =>
         obtain ⟨col0, f0⟩ := cf0
         rw [hrem0] at h
         dsimp only at h
         cases hrem1 : aremove (n.id, 1) f0 with
         | none => rw [hrem1] at h; exact absurd h (by simp)
         | some cf1 =>
           obtain ⟨col1, f1⟩ := cf1
           rw [hrem1] at h
           dsimp only at h
           cases hs0 : n.succs[0]? with
           | none => rw [hs0] at h; exact absurd h (by simp)
           | some succ0 =>
             cases hs1 : n.succs[1]? with
             | none => rw [hs0, hs1] at h; exact absurd h (by simp)
             | some succ1 =>
               rw [hs0, hs1] at h
               simp only [Option.some.injEq] at h
               subst h
               simp)

theorem applyQuantumGate_clifford_vals (st : SDState) (n : GNode) (t : TkOp) (st' : SDState)
    (hcl : isCliffordTk t = true)
    (hnd : (akeys st.frontier_cols).Nodup)
    (hfresh : ∀ (p : Nat) (k : Nat × Nat), n.succs[p]? = some k → ¬ acontains k st.frontier_cols)
    (hdist : ∀ (p p' : Nat) (k k' : Nat × Nat), p ≠ p' → n.succs[p]? = some k →
      n.succs[p']? = some k' → k ≠ k')
    (h : applyQuantumGate st n t = some st') :
    avals st'.frontier_cols = avals st.frontier_cols := by
  cases t <;>
    first
    | exact absurd hcl (by decide)
    | (unfold applyQuantumGate at h
       dsimp only at h
       cases hrem : aremove (n.id, 0) st.frontier_cols with
       | none => rw [hrem] at h; exact absurd h (by simp)
       | some cf =>
         obtain ⟨col, f⟩ := cf
         rw [hrem] at h
         cases hsucc : n.succs[0]? with
         | none => rw [hsucc] at h; exact absurd h (by simp)
         | some succ =>
           rw [hsucc] at h
           simp only [Option.some.injEq] at h
           subst h
           obtain ⟨hl, hf⟩ := aremove_eq_some hrem
           subst hf
           have hvals := avals_aerase (n.id, 0) st.frontier_cols hnd hl
           have hnc : ¬ acontains succ (aerase (n.id, 0) st.frontier_cols) := by
             intro hc
             exact hfresh 0 succ hsucc ((acontains_aerase _ _ _).mp hc).1
           dsimp only
           rw [avals_ainsert_fresh _ _ _ hnc, hvals])
    | (unfold applyQuantumGate at h
       dsimp only at h
       cases hrem0 : aremove (n.id, 0) st.frontier_cols with
       | none => rw [hrem0] at h; exact absurd h (by simp)
       | some cf0 =>
         obtain ⟨col0, f0⟩ := cf0
         rw [hrem0] at h
         dsimp only at h
         cases hrem1 : aremove (n.id, 1) f0 with
         | none => rw [hrem1] at h; exact absurd h (by simp)
         | some cf1 =>
           obtain ⟨col1, f1⟩ := cf1
           rw [hrem1] at h
           dsimp only at h
           cases hs0 : n.succs[0]? with
           | none => rw [hs0] at h; exact absurd h (by simp)
           | some succ0 =>
             cases hs1 : n.succs[1]? with
             | none => rw [hs0, hs1] at h; exact absurd h (by simp)
             | some succ1 =>
               rw [hs0, hs1] at h
               simp only [Option.some.injEq] at h
               subst h
               obtain ⟨hl0, hf0⟩ := aremove_eq_some hrem0
               subst hf0
               obtain ⟨hl1, hf1⟩ := aremove_eq_some hrem1
               subst hf1
               have hnd0 := akeys_nodup_aerase (n.id, 0) st.frontier_cols hnd
               have hvals0 := avals_aerase (n.id, 0) st.frontier_cols hnd hl0
               have hvals1 := avals_aerase (n.id, 1) _ hnd0 hl1
               have hsub : ∀ k, acontains k
                   (aerase (n.id, 1) (aerase (n.id, 0) st.frontier_cols)) →
                   acontains k st.frontier_cols := by
                 intro k hc
                 exact ((acontains_aerase _ _ _).mp
                   ((acontains_aerase _ _ _).mp hc).1).1
               have hnc0 : ¬ acontains succ0
                   (aerase (n.id, 1) (aerase (n.id, 0) st.frontier_cols)) := by
                 intro hc
                 exact hfresh 0 succ0 hs0 (hsub _ hc)
               have hnc1 : ¬ acontains succ1
                   (ainsert succ0 col0 (aerase (n.id, 1) (aerase (n.id, 0) st.frontier_cols))) := by
                 intro hc
                 rcases (acontains_ainsert _ _ _ _).mp hc with he | hc'
                 · exact hdist 0 1 succ0 succ1 (by omega) hs0 hs1 (he.symm)
                 · exact hfresh 1 succ1 hs1 (hsub _ hc')
               dsimp only
               rw [avals_ainsert_fresh _ _ _ hnc1, avals_ainsert_fresh _ _ _ hnc0,
                 hvals0, hvals1]
               exact Multiset.cons_swap _ _ _)

/-- Claim C5: every Clifford-gate handler (H, S, Sdg, X, Y, Z, V, Vdg, CX,
CY, CZ) re-inserts exactly the frontier column indices it consumed and never
allocates a tableau column, so `tab.nb_qubits` after processing any sequence
of Clifford gates equals its value before, independently of how many Clifford
gates were applied. -/
theorem c5_clifford_reuses_columns :
    (∀ (st : SDState) (n : GNode) (t : TkOp) (st' : SDState),
      isCliffordTk t = true →
      (akeys st.frontier_cols).Nodup →
      (∀ (p : Nat) (k : Nat × Nat), n.succs[p]? = some k → ¬ acontains k st.frontier_cols) →
      (∀ (p p' : Nat) (k k' : Nat × Nat), p ≠ p' → n.succs[p]? = some k →
        n.succs[p']? = some k' → k ≠ k') →
      applyQuantumGate st n t = some st' →
      avals st'.frontier_cols = avals st.frontier_cols ∧
      st'.tab.nb_qubits = st.tab.nb_qubits) ∧
    (∀ (gates : List GNode) (st A : SDState),
      (∀ g ∈ gates, ∃ t, g.op = GOp.tket t ∧ isCliffordTk t = true) →
      runNodes st gates = some A → A.tab.nb_qubits = st.tab.nb_qubits) := by
  constructor
  · intro st n t st' hcl hnd hfresh hdist h
    exact ⟨applyQuantumGate_clifford_vals st n t st' hcl hnd hfresh hdist h,
      applyQuantumGate_clifford_nb st n t st' hcl h⟩
  · intro gates
    induction gates with
    | nil =>
      intro st A _ hrun
      simp only [runNodes, Option.some.injEq] at hrun
      rw [hrun]
    | cons g rest ih =>
      intro st A hcl hrun
      rw [runNodes] at hrun
      cases hstep : stepNode st g with
      | none => rw [hstep] at hrun; exact absurd hrun (by simp)
      | some st1 =>
        rw [hstep] at hrun
        obtain ⟨t, hgop, hct⟩ := hcl g (List.mem_cons_self _ _)
        have hq : applyQuantumGate st g t = some st1 := by
          unfold stepNode at hstep
          rw [hgop] at hstep
          exact hstep
        have h1 := applyQuantumGate_clifford_nb st g t st1 hct hq
        have h2 := ih st1 A (fun g' hg' => hcl g' (List.mem_cons_of_mem _ hg')) hrun
        rw [h2, h1]

/-! ### C7: well-formed regions and the traversal invariant -/

theorem mem_of_getElem? {α : Type} {l : List α} {i : Nat} {a : α}
    (h : l[i]? = some a) : a ∈ l := by
  obtain ⟨hlt, rfl⟩ := List.getElem?_eq_some_iff.mp h
  exact List.getElem_mem hlt

theorem mem_of_getLastQ {α : Type} : ∀ (l : List α) (a : α), l.getLast? = some a → a ∈ l
  | [], a, h => by simp at h
  | [x], a, h => by simp at h; simp [h]
  | x :: y :: t, a, h => by
    rw [List.getLast?_cons_cons] at h
    exact List.mem_cons_of_mem _ (mem_of_getLastQ (y :: t) a h)

/-- Well-formedness of a region in topological order: distinct node ids; the
Output sentinel is the unique Output node and is traversed last; every qubit
output port of every node has a `single_linked_input` successor which is a
strictly later node and either the Output sentinel or a node consuming that
port as a qubit input. -/
def wfRegion (r : Region) : Bool :=
  decide ((r.nodes.map GNode.id).Nodup) &&
  (match r.nodes.getLast? with
   | some lastn => lastn.op.isOutput
   | none => false) &&
  decide (r.nodes.countP (fun nd => nd.op.isOutput) = 1) &&
  ((List.range r.nodes.length).all (fun i =>
    match r.nodes[i]? with
    | none => true
    | some nd =>
      (qOutPortsOf nd.op).all (fun p =>
        match nd.succs[p]? with
        | none => false
        | some k =>
          (List.range r.nodes.length).any (fun j =>
            decide (i < j) &&
            (match r.nodes[j]? with
             | none => false
             | some c =>
               decide (c.id = k.1) &&
               (c.op.isOutput || decide (k.2 ∈ qInPortsOf c.op)))))))

theorem wf_parts {r : Region} (hwf : wfRegion r = true) :
    (r.nodes.map GNode.id).Nodup ∧
    (match r.nodes.getLast? with
     | some lastn => lastn.op.isOutput
     | none => false) = true ∧
    r.nodes.countP (fun nd => nd.op.isOutput) = 1 ∧
    ((List.range r.nodes.length).all (fun i =>
      match r.nodes[i]? with
      | none => true
      | some nd =>
        (qOutPortsOf nd.op).all (fun p =>
          match nd.succs[p]? with
          | none => false
          | some k =>
            (List.range r.nodes.length).any (fun j =>
              decide (i < j) &&
              (match r.nodes[j]? with
               | none => false
               | some c =>
                 decide (c.id = k.1) &&
                 (c.op.isOutput || decide (k.2 ∈ qInPortsOf c.op))))))) = true := by
  unfold wfRegion at hwf
  simp only [Bool.and_eq_true, decide_eq_true_eq] at hwf
  exact ⟨hwf.1.1.1, hwf.1.1.2, hwf.1.2, hwf.2⟩

theorem wf_edges {r : Region} (hwf : wfRegion r = true) :
    ∀ (pre post : List GNode) (n : GNode), r.nodes = pre ++ n :: post →
      ∀ p ∈ qOutPortsOf n.op, ∃ k, n.succs[p]? = some k ∧
        ∃ c ∈ post, c.id = k.1 ∧ (c.op.isOutput = true ∨ k.2 ∈ qInPortsOf c.op) := by
  intro pre post n hsplit p hp
  have hall := (wf_parts hwf).2.2.2
  rw [List.all_eq_true] at hall
  have hlen : pre.length < r.nodes.length := by
    rw [hsplit, List.length_append, List.length_cons]; omega
  have hi := hall pre.length (List.mem_range.mpr hlen)
  have hgi : r.nodes[pre.length]? = some n := by
    rw [hsplit, List.getElem?_append_right (Nat.le_refl _)]
    simp
  rw [hgi] at hi
  dsimp only at hi
  rw [List.all_eq_true] at hi
  have hq := hi p hp
  cases hsk : n.succs[p]? with
  | none => rw [hsk] at hq; exact absurd hq (by simp)
  | some k =>
    rw [hsk] at hq
    dsimp only at hq
    rw [List.any_eq_true] at hq
    obtain ⟨j, hjmem, hj⟩ := hq
    rw [List.mem_range] at hjmem
    rw [Bool.and_eq_true, decide_eq_true_eq] at hj
    obtain ⟨hij, hj⟩ := hj
    cases hgj : r.nodes[j]? with
    | none => rw [hgj] at hj; exact absurd hj (by simp)
    | some c =>
      rw [hgj] at hj
      dsimp only at hj
      rw [Bool.and_eq_true, decide_eq_true_eq, Bool.or_eq_true, decide_eq_true_eq] at hj
      refine ⟨k, rfl, c, ?_, hj.1, hj.2⟩
      have : r.nodes[j]? = (n :: post)[j - pre.length]? := by
        rw [hsplit, List.getElem?_append_right (by omega)]
      rw [this] at hgj
      have hjp : j - pre.length = (j - pre.length - 1) + 1 := by omega
      rw [hjp] at hgj
      simp only [List.getElem?_cons_succ] at hgj
      exact mem_of_getElem? hgj

theorem wf_consumes {r : Region} (hwf : wfRegion r = true) :
    ∀ n' ∈ r.nodes, ∀ k, producesKey n' k →
      ∀ c ∈ r.nodes, c.id = k.1 → (c.op.isOutput = true ∨ k.2 ∈ qInPortsOf c.op) := by
  intro n' hn' k hpk c hc hcid
  obtain ⟨p, hp, hsk⟩ := hpk
  obtain ⟨s, t, hst⟩ := List.append_of_mem hn'
  obtain ⟨k', hsk', c', hc't, hc'id, hc'prop⟩ := wf_edges hwf s t n' hst p hp
  have hkk : k' = k := by rw [hsk] at hsk'; exact (Option.some.inj hsk').symm
  subst hkk
  have hc'mem : c' ∈ r.nodes := by rw [hst]; exact List.mem_append_right _ (List.mem_cons_of_mem _ hc't)
  have : c = c' := by
    refine List.inj_on_of_nodup_map (wf_parts hwf).1 hc hc'mem ?_
    rw [hcid, hc'id]
  rw [this]
  exact hc'prop

theorem wf_no_inner_output {r : Region} (hwf : wfRegion r = true) :
    ∀ (pre post : List GNode) (n : GNode), r.nodes = pre ++ n :: post →
      n.op.isOutput = true → post = [] := by
  intro pre post n hsplit hop
  by_contra hne
  obtain ⟨lastn, hlast, hlop⟩ : ∃ lastn, r.nodes.getLast? = some lastn ∧
      lastn.op.isOutput = true := by
    have h2 := (wf_parts hwf).2.1
    cases hl : r.nodes.getLast? with
    | none => rw [hl] at h2; exact absurd h2 (by simp)
    | some lastn => rw [hl] at h2; exact ⟨lastn, rfl, h2⟩
  have hlast' : r.nodes.getLast? = post.getLast? := by
    rw [hsplit]
    rw [show pre ++ n :: post = (pre ++ [n]) ++ post by simp]
    exact List.getLast?_append_of_ne_nil _ hne
  have hlmem : lastn ∈ post := by
    rw [hlast'] at hlast
    cases hp : post.getLast? with
    | none => rw [hp] at hlast; exact absurd hlast (by simp)
    | some x =>
      rw [hp] at hlast
      have := mem_of_getLastQ post x hp
      rwa [Option.some.inj hlast] at this
  have hcount := (wf_parts hwf).2.2.1
  rw [hsplit] at hcount
  rw [List.countP_append, List.countP_cons] at hcount
  have h1 : 0 < List.countP (fun nd => nd.op.isOutput) post := by
    rw [List.countP_pos_iff]
    exact ⟨lastn, hlmem, hlop⟩
  simp only [hop, if_true] at hcount
  omega

/-- Keys the frontier must hold when the nodes of `pre` (plus the Input
sentinel's seeding) have been processed and `todo` remains: edges from a
processed producer (or the Input) to a consumer still in `todo`. -/
def EFkey (r : Region) (pre todo : List GNode) (k : Nat × Nat) : Prop :=
  (∃ n, (n ∈ pre ∨ (n ∈ r.nodes ∧ n.op.isInput = true)) ∧ producesKey n k) ∧
  k.1 ∈ todo.map GNode.id

/-- Port `q` is a qubit output port of the region: some node's qubit edge
feeds port `q` of the final Output sentinel. -/
def regionOutPort (r : Region) (q : Nat) : Prop :=
  ∃ out, r.nodes.getLast? = some out ∧ ∃ n ∈ r.nodes, producesKey n (out.id, q)

theorem acontains_nil {α β : Type} [DecidableEq α] (k : α) :
    ¬ acontains k ([] : List (α × β)) := by
  simp [acontains, alookup]

theorem sweep_contains (q : Nat) :
    ∀ (l : List ((Nat × Nat) × Nat)) (acc : List (Nat × Nat)),
      acontains q (l.foldl (fun oc e => ainsert e.1.2 e.2 oc) acc) ↔
        (acontains q acc ∨ ∃ e ∈ l, e.1.2 = q) := by
  intro l
  induction l with
  | nil => intro acc; simp
  | cons e t ih =>
    intro acc
    simp only [List.foldl_cons]
    rw [ih, acontains_ainsert]
    constructor
    · rintro ((he | hc) | hex)
      · exact Or.inr ⟨e, List.mem_cons_self _ _, he.symm⟩
      · exact Or.inl hc
      · obtain ⟨e', he', hq⟩ := hex
        exact Or.inr ⟨e', List.mem_cons_of_mem _ he', hq⟩
    · rintro (hc | ⟨e', he', hq⟩)
      · exact Or.inl (Or.inr hc)
      · rcases List.mem_cons.mp he' with rfl | he''
        · exact Or.inl (Or.inl hq.symm)
        · exact Or.inr ⟨e', he'', hq⟩

theorem sweep_nodup :
    ∀ (l : List ((Nat × Nat) × Nat)) (acc : List (Nat × Nat)),
      (akeys acc).Nodup → (akeys (l.foldl (fun oc e => ainsert e.1.2 e.2 oc) acc)).Nodup := by
  intro l
  induction l with
  | nil => intro acc h; exact h
  | cons e t ih => intro acc h; exact ih _ (akeys_nodup_ainsert _ _ _ h)

theorem sdNewLoop_frontier (node : GNode) :
    ∀ (tys : List Bool) (ic : List (Nat × Nat)) (fr : List ((Nat × Nat) × Nat)) (k p : Nat)
      (ic' : List (Nat × Nat)) (fr' : List ((Nat × Nat) × Nat)) (k' : Nat),
      sdNewLoop node ic fr k p tys = some (ic', fr', k') →
      ∀ key, acontains key fr' ↔
        (acontains key fr ∨ ∃ j ∈ trueIndicesFrom tys p, node.succs[j]? = some key) := by
  intro tys
  induction tys with
  | nil =>
    intro ic fr k p ic' fr' k' h key
    simp only [sdNewLoop, Option.some.injEq, Prod.mk.injEq] at h
    rw [← h.2.1]
    simp [trueIndicesFrom]
  | cons ty rest ih =>
    intro ic fr k p ic' fr' k' h key
    cases ty with
    | false =>
      rw [sdNewLoop, if_neg (by decide)] at h
      rw [ih _ _ _ _ _ _ _ h key]
      simp [trueIndicesFrom]
    | true =>
      rw [sdNewLoop, if_pos rfl] at h
      cases hsucc : node.succs[p]? with
      | none => rw [hsucc] at h; exact absurd h (by simp)
      | some succ =>
        rw [hsucc] at h
        rw [ih _ _ _ _ _ _ _ h key, acontains_ainsert]
        simp only [trueIndicesFrom]
        constructor
        · rintro ((he | hc) | ⟨j, hj, hk⟩)
          · exact Or.inr ⟨p, List.mem_cons_self _ _, by rw [hsucc, he]⟩
          · exact Or.inl hc
          · exact Or.inr ⟨j, List.mem_cons_of_mem _ hj, hk⟩
        · rintro (hc | ⟨j, hj, hk⟩)
          · exact Or.inl (Or.inr hc)
          · rcases List.mem_cons.mp hj with rfl | hj'
            · rw [hsucc] at hk
              exact Or.inl (Or.inl (Option.some.inj hk).symm)
            · exact Or.inr ⟨j, hj', hk⟩

theorem isOutput_eq_output {op : GOp} (h : op.isOutput = true) : op = GOp.output := by
  cases op with
  | output => rfl
  | input o => simp [GOp.isOutput] at h
  | tket t => simp [GOp.isOutput] at h
  | unknownOp a b => simp [GOp.isOutput] at h

theorem runNodes_inv (r : Region) (hwf : wfRegion r = true) :
    ∀ (todo pre : List GNode) (st A : SDState),
      todo ≠ [] →
      r.nodes = pre ++ todo →
      (∀ k, acontains k st.frontier_cols ↔ EFkey r pre todo k) →
      st.out_cols = [] →
      runNodes st todo = some A →
      A.frontier_cols = [] ∧ (akeys A.out_cols).Nodup ∧
      (∀ q, acontains q A.out_cols ↔ regionOutPort r q) := by
  intro todo
  induction todo with
  | nil => intro pre st A hne; exact absurd rfl hne
  | cons n rest ih =>
    intro pre st A _ hsplit hinv houtc hrun
    rw [runNodes] at hrun
    cases hstep : stepNode st n with
    | none => rw [hstep] at hrun; exact absurd hrun (by simp)
    | some st1 =>
      rw [hstep] at hrun
      by_cases hno : n.op.isOutput = true
      · -- the node is the Output sentinel: it is the last node and run ends
        have hrest : rest = [] := wf_no_inner_output hwf pre rest n hsplit hno
        subst hrest
        simp only [runNodes, Option.some.injEq] at hrun
        subst hrun
        have hopeq : n.op = GOp.output := isOutput_eq_output hno
        have hst1 : st1 = { st with
            out_cols := st.frontier_cols.foldl (fun oc e => ainsert e.1.2 e.2 oc) st.out_cols
            frontier_cols := [] } := by
          unfold stepNode at hstep
          rw [hopeq] at hstep
          exact (Option.some.inj hstep).symm
        subst hst1
        have hlast2 : r.nodes.getLast? = some n := by
          rw [hsplit]; exact List.getLast?_concat _
        refine ⟨rfl, ?_, ?_⟩
        · dsimp only
          rw [houtc]
          exact sweep_nodup _ _ (by simp [akeys])
        · intro q
          dsimp only
          rw [houtc, sweep_contains q st.frontier_cols []]
          constructor
          · rintro (hfalse | ⟨e, he, hq⟩)
            · exact absurd hfalse (acontains_nil q)
            · have hce : acontains e.1 st.frontier_cols := by
                unfold acontains
                rw [alookup_isSome_iff_mem]
                exact ⟨e.2, by simpa using he⟩
              obtain ⟨⟨n', hn', hpk⟩, hk1⟩ := (hinv e.1).mp hce
              simp only [List.map_cons, List.map_nil, List.mem_singleton] at hk1
              refine ⟨n, hlast2, n', ?_, ?_⟩
              · rcases hn' with h | h
                · rw [hsplit]; exact List.mem_append_left _ h
                · exact h.1
              · have heq : e.1 = (n.id, q) := by
                  have : e.1 = (e.1.1, e.1.2) := rfl
                  rw [this, hk1, hq]
                rwa [heq] at hpk
          · rintro ⟨out, hlast, n', hn', hpk⟩
            have hout_eq : out = n := by
              rw [hlast] at hlast2
              exact Option.some.inj hlast2
            rw [hout_eq] at hpk
            have hn'' : n' ∈ pre ∨ n' = n := by
              rw [hsplit] at hn'
              rcases List.mem_append.mp hn' with h | h
              · exact Or.inl h
              · exact Or.inr (List.mem_singleton.mp h)
            rcases hn'' with hpre | rfl
            · have hc : acontains (n.id, q) st.frontier_cols := by
                rw [hinv]
                exact ⟨⟨n', Or.inl hpre, hpk⟩, by simp⟩
              unfold acontains at hc
              rw [alookup_isSome_iff_mem] at hc
              obtain ⟨v, hv⟩ := hc
              exact Or.inr ⟨((n.id, q), v), hv, rfl⟩
            · exfalso
              obtain ⟨p, hp, _⟩ := hpk
              rw [hopeq] at hp
              simp [qOutPortsOf] at hp
      · -- a non-Output node: transfer the invariant and recurse
        have hno' : n.op.isOutput = false := by
          cases h : n.op.isOutput
          · rfl
          · exact absurd h hno
        cases rest with
        | nil =>
          exfalso
          have hlast2 : r.nodes.getLast? = some n := by
            rw [hsplit]; exact List.getLast?_concat _
          have h2 := (wf_parts hwf).2.1
          rw [hlast2] at h2
          exact hno h2
        | cons m rest' =>
          obtain ⟨hiff, houts⟩ := stepNode_frontier_spec st st1 n hno' hstep
          have hnmem : n ∈ r.nodes := by
            rw [hsplit]; exact List.mem_append_right _ (List.mem_cons_self _ _)
          have hnotrem : ∀ k : Nat × Nat, k.1 ∈ (m :: rest').map GNode.id →
              k ∉ removedKeys n := by
            intro k hk1 hkr
            unfold removedKeys at hkr
            rw [List.mem_map] at hkr
            obtain ⟨j, hj, hje⟩ := hkr
            have hk1n : k.1 = n.id := by rw [← hje]
            have hnd := (wf_parts hwf).1
            rw [hsplit, List.map_append, List.map_cons] at hnd
            have hnd2 := hnd.of_append_right
            have hnotin := (List.nodup_cons.mp hnd2).1
            rw [hk1n] at hk1
            exact hnotin hk1
          have hinv' : ∀ k, acontains k st1.frontier_cols ↔
              EFkey r (pre ++ [n]) (m :: rest') k := by
            intro k
            rw [hiff k]
            constructor
            · rintro (⟨hc, hnr⟩ | hpk)
              · obtain ⟨⟨n', hn', hpk'⟩, hk1⟩ := (hinv k).mp hc
                refine ⟨⟨n', ?_, hpk'⟩, ?_⟩
                · rcases hn' with h | h
                  · exact Or.inl (List.mem_append_left _ h)
                  · exact Or.inr h
                · simp only [List.map_cons, List.mem_cons] at hk1
                  rcases hk1 with h | h
                  · exfalso
                    have hn'mem : n' ∈ r.nodes := by
                      rcases hn' with hh | hh
                      · rw [hsplit]; exact List.mem_append_left _ hh
                      · exact hh.1
                    have hcons := wf_consumes hwf n' hn'mem k hpk' n hnmem h.symm
                    rcases hcons with ho | hi
                    · exact hno ho
                    · apply hnr
                      unfold removedKeys
                      rw [List.mem_map]
                      refine ⟨k.2, hi, ?_⟩
                      have : (n.id, k.2) = (k.1, k.2) := by rw [h]
                      rw [this]
                  · simpa using h
              · obtain ⟨p, hp, hsk⟩ := hpk
                obtain ⟨k', hsk', c, hcpost, hcid, _⟩ :=
                  wf_edges hwf pre (m :: rest') n hsplit p hp
                have hkk : k' = k := by rw [hsk] at hsk'; exact (Option.some.inj hsk').symm
                subst hkk
                refine ⟨⟨n, Or.inl (List.mem_append_right _ (List.mem_singleton.mpr rfl)),
                  ⟨p, hp, hsk⟩⟩, ?_⟩
                rw [← hcid]
                exact List.mem_map_of_mem _ hcpost
            · rintro ⟨⟨n', hn', hpk'⟩, hk1⟩
              rcases hn' with hmem | hinp
              · rcases List.mem_append.mp hmem with hpre | hsing
                · refine Or.inl ⟨?_, hnotrem k hk1⟩
                  rw [hinv]
                  refine ⟨⟨n', Or.inl hpre, hpk'⟩, ?_⟩
                  simp only [List.map_cons, List.mem_cons]
                  right
                  simpa using hk1
                · have : n' = n := List.mem_singleton.mp hsing
                  subst this
                  exact Or.inr hpk'
              · refine Or.inl ⟨?_, hnotrem k hk1⟩
                rw [hinv]
                refine ⟨⟨n', Or.inr hinp, hpk'⟩, ?_⟩
                simp only [List.map_cons, List.mem_cons]
                right
                simpa using hk1
          have houts1 : st1.out_cols = [] := by rw [houts, houtc]
          have hsplit' : r.nodes = (pre ++ [n]) ++ m :: rest' := by
            rw [hsplit, List.append_cons]
          exact ih (pre ++ [n]) st1 A (by simp) hsplit' hinv' houts1 hrun

theorem sdNew_initial_inv (r : Region) (hwf : wfRegion r = true) (st0 : SDState)
    (hsd : sdNew r = some st0) :
    (∀ k, acontains k st0.frontier_cols ↔ EFkey r [] r.nodes k) ∧ st0.out_cols = [] := by
  unfold sdNew at hsd
  cases hfil : r.nodes.filter (fun n => n.op.isInput) with
  | nil => rw [hfil] at hsd; exact absurd hsd (by simp)
  | cons inp rest2 =>
    cases rest2 with
    | cons b t => rw [hfil] at hsd; exact absurd hsd (by simp)
    | nil =>
      rw [hfil] at hsd
      dsimp only at hsd
      cases hop : inp.op with
      | output => rw [hop] at hsd; exact absurd hsd (by simp)
      | tket t => rw [hop] at hsd; exact absurd hsd (by simp)
      | unknownOp a b => rw [hop] at hsd; exact absurd hsd (by simp)
      | input outTs =>
        rw [hop] at hsd
        dsimp only at hsd
        cases hloop : sdNewLoop inp [] [] 0 0 outTs with
        | none => rw [hloop] at hsd; exact absurd hsd (by simp)
        | some res =>
          obtain ⟨ic, fr, k⟩ := res
          rw [hloop] at hsd
          have hst0 := Option.some.inj hsd
          subst hst0
          refine ⟨?_, rfl⟩
          intro key
          dsimp only
          rw [sdNewLoop_frontier inp outTs [] [] 0 0 ic fr k hloop key]
          have hinp_mem : inp ∈ r.nodes :=
            List.mem_of_mem_filter (by rw [hfil]; exact List.mem_singleton.mpr rfl)
          have hinp_in : inp.op.isInput = true := by
            have hm : inp ∈ r.nodes.filter (fun n => n.op.isInput) := by
              rw [hfil]; exact List.mem_singleton.mpr rfl
            exact (List.mem_filter.mp hm).2
          constructor
          · rintro (hfalse | ⟨j, hj, hsk⟩)
            · exact absurd hfalse (acontains_nil key)
            · have hjq : j ∈ qOutPortsOf inp.op := by
                rw [hop]
                simpa [qOutPortsOf, trueIndices] using hj
              have hpk : producesKey inp key := ⟨j, hjq, hsk⟩
              obtain ⟨s, t, hst⟩ := List.append_of_mem hinp_mem
              obtain ⟨k2, hsk2, c, hct, hcid, _⟩ := wf_edges hwf s t inp hst j hjq
              have hkk : k2 = key := by rw [hsk] at hsk2; exact (Option.some.inj hsk2).symm
              subst hkk
              refine ⟨⟨inp, Or.inr ⟨hinp_mem, hinp_in⟩, hpk⟩, ?_⟩
              rw [← hcid]
              apply List.mem_map_of_mem
              rw [hst]
              exact List.mem_append_right _ (List.mem_cons_of_mem _ hct)
          · rintro ⟨⟨n', hn', hpk⟩, hk1⟩
            rcases hn' with hfalse | ⟨hmem, hisin⟩
            · exact absurd hfalse (List.not_mem_nil n')
            · have hmf : n' ∈ r.nodes.filter (fun n => n.op.isInput) :=
                List.mem_filter.mpr ⟨hmem, hisin⟩
              rw [hfil] at hmf
              have hn'eq : n' = inp := List.mem_singleton.mp hmf
              subst hn'eq
              obtain ⟨p, hp, hsk⟩ := hpk
              rw [hop] at hp
              simp only [qOutPortsOf, trueIndices] at hp
              exact Or.inr ⟨p, hp, hsk⟩

/-- Claim C7: for every well-formed region, when `run_dfg` returns,
`frontier_cols` is empty and `out_cols` has exactly one entry per qubit
output port of the region (the ports of the final Output sentinel that are
fed by a qubit edge, each re-keyed from the frontier by the Output branch of
the traversal, lines 125-131). -/
theorem c7_run_dfg_output_ports (r : Region) (A : SDState)
    (hwf : wfRegion r = true) (hrun : runDfg r = some A) :
    A.frontier_cols = [] ∧ (akeys A.out_cols).Nodup ∧
    (∀ q, acontains q A.out_cols ↔ regionOutPort r q) := by
  unfold runDfg at hrun
  cases hsd : sdNew r with
  | none => rw [hsd] at hrun; exact absurd hrun (by simp)
  | some st0 =>
    rw [hsd] at hrun
    obtain ⟨hinv0, houtc0⟩ := sdNew_initial_inv r hwf st0 hsd
    have hne : r.nodes ≠ [] := by
      intro h
      have h2 := (wf_parts hwf).2.1
      rw [h] at h2
      simp at h2
    exact runNodes_inv r hwf r.nodes [] st0 A hne (by simp) hinv0 houtc0 hrun

/-- A one-qubit region: Input → H → Output. -/
def c7Region : Region :=
  { nodes := [ { id := 0, op := GOp.input [true], succs := [(1, 0)] },
               { id := 1, op := GOp.tket TkOp.H, succs := [(2, 0)] },
               { id := 2, op := GOp.output, succs := [] } ] }

def c7W : SDState := (runDfg c7Region).getD sdDefault

/-- Witness for C7 at the Input → H → Output region. -/
theorem c7_run_dfg_output_ports_witness :
    wfRegion c7Region = true ∧ runDfg c7Region = some c7W ∧
    (c7W.frontier_cols = [] ∧ (akeys c7W.out_cols).Nodup ∧
     (∀ q, acontains q c7W.out_cols ↔ regionOutPort c7Region q)) :=
  ⟨by decide, by decide, c7_run_dfg_output_ports c7Region c7W (by decide) (by decide)⟩

def c5St : SDState :=
  { sdDefault with tab := ChoiTableau.new 2, frontier_cols := [((2, 0), 1)] }

def c5Node : GNode := { id := 2, op := GOp.tket TkOp.H, succs := [(3, 0)] }

def c5W : SDState := (applyQuantumGate c5St c5Node TkOp.H).getD sdDefault

/-- Witness for C5: an H gate consuming frontier column 1. -/
theorem c5_clifford_reuses_columns_witness :
    (isCliffordTk TkOp.H = true ∧ (akeys c5St.frontier_cols).Nodup ∧
     applyQuantumGate c5St c5Node TkOp.H = some c5W ∧
     (avals c5W.frontier_cols = avals c5St.frontier_cols ∧
      c5W.tab.nb_qubits = c5St.tab.nb_qubits)) ∧
    ((∀ g ∈ [c5Node], ∃ t, g.op = GOp.tket t ∧ isCliffordTk t = true) ∧
     runNodes c5St [c5Node] = some c5W ∧ c5W.tab.nb_qubits = c5St.tab.nb_qubits) := by
  refine ⟨⟨rfl, by decide, by decide, ?_⟩, ⟨?_, by decide, ?_⟩⟩
  · refine c5_clifford_reuses_columns.1 c5St c5Node TkOp.H c5W rfl (by decide) ?_ ?_ (by decide)
    · intro p kk hk
      match p with
      | 0 =>
        simp only [c5Node, List.getElem?_cons_zero, Option.some.injEq] at hk
        subst hk
        decide
      | pp + 1 =>
        simp [c5Node] at hk
    · intro p p' kk kk' hpp hk hk'
      match p, p' with
      | 0, 0 => exact absurd rfl hpp
      | 0, pp + 1 => simp [c5Node] at hk'
      | pp + 1, _ => simp [c5Node] at hk
  · intro g hg
    rw [List.mem_singleton] at hg
    subst hg
    exact ⟨TkOp.H, rfl, rfl⟩
  · exact c5_clifford_reuses_columns.2 [c5Node] c5St c5W
      (fun g hg => by rw [List.mem_singleton] at hg; subst hg; exact ⟨TkOp.H, rfl, rfl⟩)
      (by decide)

/-! ### C9: recursion depth of the region analysis

`run_dfg` (lines 79-138) recurses into `run_conditional` (line 94, which
calls `run_dfg` once per case at line 162), into `run_tail_loop` (line 99,
which calls `run_dfg` on the body at line 194) and — under
`FunctionOpacity::Boundary` and `::Inline` — into the called function's
definition at a `Call` node (lines 111 and 119).  The model below counts the
nesting depth of `run_dfg` activations; the hierarchy model keeps only what
the claim needs: ordinary nodes, conditionals, tail loops and calls into a
function table. -/

mutual
inductive HNode where
  | prim : HNode
  | call : Nat → HNode
  | cond : HRegionList → HNode
  | tailLoop : HRegion → HNode
inductive HRegion where
  | nilN : HRegion
  | consN : HNode → HRegion → HRegion
inductive HRegionList where
  | nilC : HRegionList
  | consC : HRegion → HRegionList → HRegionList
end

/-- `FunctionOpacity` (lines 19-27); the source constructors are Opaque,
Boundary and Inline. -/
inductive FunctionOpacity where
  | opq : FunctionOpacity
  | boundary : FunctionOpacity
  | inline : FunctionOpacity

/-- The module's function table (Call nodes resolve `linked_outputs` to a
function definition). -/
structure HProg where
  funs : List HRegion

mutual
/-- Extra `run_dfg` activations below the current one, maximized over a
region's nodes. -/
def rdNodes (P : HProg) (fo : FunctionOpacity) : Nat → HRegion → Option Nat
  | _, .nilN => some 0
  | fuel, .consN nd rest =>
    match rdNode P fo fuel nd, rdNodes P fo fuel rest with
    | some a, some b => some (max a b)
    | _, _ => none
termination_by fuel reg => (fuel, sizeOf reg)

/-- Extra `run_dfg` activations a single node causes: none for an ordinary
node; one per nested region for Conditional and TailLoop; under Boundary and
Inline, one plus the called body's own requirement for a Call (consuming
fuel, since call chains are not structurally decreasing); none for a Call
under Opaque. -/
def rdNode (P : HProg) (fo : FunctionOpacity) : Nat → HNode → Option Nat
  | _, .prim => some 0
  | fuel, .call fid =>
    match fo with
    | .opq => some 0
    | .boundary => rdCall P fo fuel fid
    | .inline => rdCall P fo fuel fid
  | fuel, .cond cs => rdConds P fo fuel cs
  | fuel, .tailLoop body =>
    match rdNodes P fo fuel body with
    | none => none
    | some d => some (1 + d)
termination_by fuel nd => (fuel, sizeOf nd)

/-- Following a Call into the function's definition consumes fuel: unlike
region nesting, a call chain is not structurally decreasing. -/
def rdCall (P : HProg) (fo : FunctionOpacity) : Nat → Nat → Option Nat
  | 0, _ => none
  | fuel' + 1, fid =>
    match P.funs[fid]? with
    | none => none
    | some body =>
      match rdNodes P fo fuel' body with
      | none => none
      | some d => some (1 + d)
termination_by fuel fid => (fuel, 0)

def rdConds (P : HProg) (fo : FunctionOpacity) : Nat → HRegionList → Option Nat
  | _, .nilC => some 0
  | fuel, .consC c rest =>
    match rdNodes P fo fuel c, rdConds P fo fuel rest with
    | some a, some b => some (max (1 + a) b)
    | _, _ => none
termination_by fuel cs => (fuel, sizeOf cs)
end

/-- Recursion depth of `run_dfg` on a region: the activation itself plus the
deepest nested requirement. -/
def rdDepth (P : HProg) (fo : FunctionOpacity) (fuel : Nat) (reg : HRegion) : Option Nat :=
  match rdNodes P fo fuel reg with
  | none => none
  | some d => some (1 + d)

mutual
/-- Region-hierarchy nesting below a region's nodes (Call nodes nest
nothing: a function definition is not a child of the call site). -/
def hierNodes : HRegion → Nat
  | .nilN => 0
  | .consN nd rest => max (hierNode nd) (hierNodes rest)
def hierNode : HNode → Nat
  | .prim => 0
  | .call _ => 0
  | .cond cs => hierConds cs
  | .tailLoop body => 1 + hierNodes body
def hierConds : HRegionList → Nat
  | .nilC => 0
  | .consC c rest => max (1 + hierNodes c) (hierConds rest)
end

/-- Depth of the region hierarchy rooted at a region. -/
def hierDepth (reg : HRegion) : Nat := 1 + hierNodes reg

mutual
theorem rdNodes_opq (P : HProg) (fuel : Nat) :
    ∀ reg, rdNodes P FunctionOpacity.opq fuel reg = some (hierNodes reg)
  | .nilN => by simp [rdNodes, hierNodes]
  | .consN nd rest => by
    rw [rdNodes, rdNode_opq P fuel nd, rdNodes_opq P fuel rest]
    simp [hierNodes]
theorem rdNode_opq (P : HProg) (fuel : Nat) :
    ∀ nd, rdNode P FunctionOpacity.opq fuel nd = some (hierNode nd)
  | .prim => by simp [rdNode, hierNode]
  | .call fid => by simp [rdNode, hierNode]
  | .cond cs => by
    rw [rdNode, rdConds_opq P fuel cs]
    simp [hierNode]
  | .tailLoop body => by
    rw [rdNode, rdNodes_opq P fuel body]
    simp [hierNode]
theorem rdConds_opq (P : HProg) (fuel : Nat) :
    ∀ cs, rdConds P FunctionOpacity.opq fuel cs = some (hierConds cs)
  | .nilC => by simp [rdConds, hierConds]
  | .consC c rest => by
    rw [rdConds, rdNodes_opq P fuel c, rdConds_opq P fuel rest]
    simp [hierConds]
end

/-- Claim C9 (amended): under `FunctionOpacity::Opaque` the recursion depth
of the region analysis equals the depth of the region hierarchy — bounded by
nesting, not by circuit size or call chains — for any fuel. -/
theorem c9_opaque_depth_eq_hierarchy (P : HProg) (fuel : Nat) (reg : HRegion) :
    rdDepth P FunctionOpacity.opq fuel reg = some (hierDepth reg) := by
  unfold rdDepth
  rw [rdNodes_opq P fuel reg]
  rfl

/-- A function table with f0 calling f1 and f1 an ordinary body. -/
def c9Prog : HProg :=
  { funs := [HRegion.consN (HNode.call 1) HRegion.nilN,
             HRegion.consN HNode.prim HRegion.nilN] }

/-- The analysed region: a single Call of f0. -/
def c9Main : HRegion := HRegion.consN (HNode.call 0) HRegion.nilN

/-- Claim C9 counterexample: under `FunctionOpacity::Boundary`, analysing a
region whose Call chain is main → f0 → f1 nests three `run_dfg` activations,
while every region of the program has hierarchy depth one — the recursion
depth is NOT bounded by the depth of the region hierarchy; it grows with the
call-chain length. -/
theorem c9_call_chain_counterexample :
    rdDepth c9Prog FunctionOpacity.boundary 10 c9Main = some 3 ∧
    hierDepth c9Main = 1 ∧ (∀ b ∈ c9Prog.funs, hierDepth b = 1) ∧ ¬ (3 ≤ 1) := by
  refine ⟨?_, ?_, ?_, by omega⟩
  · simp [rdDepth, rdNodes, rdNode, rdCall, c9Prog, c9Main]
  · simp [hierDepth, hierNodes, hierNode, c9Main]
  · intro b hb
    simp only [c9Prog, List.mem_cons, List.not_mem_nil, or_false] at hb
    rcases hb with rfl | rfl <;> simp [hierDepth, hierNodes, hierNode]
